import Mathlib

/-!
# Element Plus table-column checker (`check-table-advanced.js`)

A shallow embedding of the text pipeline of `check-table-advanced.js`
(`removeComments`, `extractTemplate`, `checkTableIssues`) together with
theorems about the issue list it produces.

JavaScript strings are modelled as lists of characters (`Str`); every
operation used by the script (`indexOf`, `lastIndexOf`, `includes`,
`endsWith`, `substring`, `trim`, `split`, the four regular expressions) is
given as a structurally recursive, executable function on such lists.
`checkTableIssues` takes the file content that `fs.readFileSync` returns; the
counters of `main` are a fold over the scanned files (`scanSummary`).
-/

namespace CheckTable

/-- A JavaScript string, as the list of its characters. -/
abbrev Str := List Char

/-! ## String primitives -/

/-- Index of the first occurrence of `pat` in `s`, if there is one. -/
def find? (pat : Str) : Str → Option Nat
  | [] => if pat.isPrefixOf [] then some 0 else none
  | c :: cs =>
    if pat.isPrefixOf (c :: cs) then some 0
    else (find? pat cs).map (· + 1)

/-- Index of the last occurrence of `pat` in `s`, if there is one. -/
def findLast? (pat : Str) : Str → Option Nat
  | [] => if pat.isPrefixOf [] then some 0 else none
  | c :: cs =>
    match findLast? pat cs with
    | some k => some (k + 1)
    | none => if pat.isPrefixOf (c :: cs) then some 0 else none

/-- JavaScript `s.indexOf(pat)`: the first index, or `-1`. For a regular
expression without metacharacters `s.search(/pat/)` is the same function. -/
def indexOf (s pat : Str) : Int :=
  match find? pat s with
  | some k => (k : Int)
  | none => -1

/-- JavaScript `s.lastIndexOf(pat)`: the last index, or `-1`. -/
def lastIndexOf (s pat : Str) : Int :=
  match findLast? pat s with
  | some k => (k : Int)
  | none => -1

/-- JavaScript `s.includes(pat)`. -/
def includes (s pat : Str) : Bool := (find? pat s).isSome

/-- JavaScript `s.endsWith(pat)`. -/
def endsWith (s pat : Str) : Bool := pat.isSuffixOf s

/-- JavaScript `s.substring(start, stop)`: both indices are clamped to
`[0, s.length]` and swapped when `start > stop`. -/
def substring (s : Str) (start stop : Int) : Str :=
  let a := min start.toNat s.length
  let b := min stop.toNat s.length
  (s.drop (min a b)).take (max a b - min a b)

/-- JavaScript `s.substring(start)`. -/
def substringFrom (s : Str) (start : Int) : Str :=
  s.drop (min start.toNat s.length)

/-- The characters JavaScript `trim` removes: white space and line
terminators. -/
def isWhiteSpace (c : Char) : Bool :=
  let n := c.toNat
  n == 0x09 || n == 0x0A || n == 0x0B || n == 0x0C || n == 0x0D || n == 0x20 ||
  n == 0xA0 || n == 0x1680 || (0x2000 ≤ n && n ≤ 0x200A) || n == 0x2028 ||
  n == 0x2029 || n == 0x202F || n == 0x205F || n == 0x3000 || n == 0xFEFF

/-- JavaScript `s.trim()`. -/
def trim (s : Str) : Str :=
  ((s.dropWhile isWhiteSpace).reverse.dropWhile isWhiteSpace).reverse

/-- JavaScript `s.split(sep)` for a one-character separator. -/
def split (sep : Char) : Str → List Str
  | [] => [[]]
  | c :: cs =>
    if c = sep then [] :: split sep cs
    else
      match split sep cs with
      | [] => [[c]]
      | p :: ps => (c :: p) :: ps

/-- First piece of JavaScript `s.split(pat)`, that is `s.split(pat)[0]`, for a
non-empty `pat`: the text before the first occurrence, or all of `s`. -/
def splitHead (s pat : Str) : Str :=
  match find? pat s with
  | some k => s.take k
  | none => s

/-- The line terminators that `.` does not match and before which `$`
matches under the `m` flag. -/
def isLineTerminator (c : Char) : Bool :=
  let n := c.toNat
  n == 0x0A || n == 0x0D || n == 0x2028 || n == 0x2029

/-! ## Regular expressions of the script -/

/-- `s.replace(/OP[\s\S]*?CL/g, '')`: from left to right, every `op` that has
a `cl` after it is removed up to the end of the first such `cl`. The first
argument counts the characters of a match still to be dropped. -/
def removeDelimited (op cl : Str) : Nat → Str → Str
  | _, [] => []
  | skip + 1, _ :: cs => removeDelimited op cl skip cs
  | 0, c :: cs =>
    if op.isPrefixOf (c :: cs) then
      match find? cl ((c :: cs).drop op.length) with
      | some k => removeDelimited op cl (op.length + k + cl.length - 1) cs
      | none => c :: removeDelimited op cl 0 cs
    else c :: removeDelimited op cl 0 cs

/-- `s.replace(/\/\/.*$/gm, '')`: every `//` is removed together with the
rest of its line; the line terminator stays. The flag says whether the scan
is inside a match. -/
def removeLineComments : Bool → Str → Str
  | _, [] => []
  | true, c :: cs =>
    if isLineTerminator c then c :: removeLineComments false cs
    else removeLineComments true cs
  | false, c :: cs =>
    if "//".toList.isPrefixOf (c :: cs) then removeLineComments true cs
    else c :: removeLineComments false cs

/-- Model of `removeComments`: HTML comments, then line comments, then block
comments. -/
def removeComments (content : Str) : Str :=
  let content := removeDelimited "<!--".toList "-->".toList 0 content
  let content := removeLineComments false content
  let content := removeDelimited "/*".toList "*/".toList 0 content
  content

/-- Model of `extractTemplate`: capture group 1 of the first match of
`/<template>([\s\S]*?)<\/template>/`, or the empty string. The leftmost match
starts at the first `<template>` (if that one has no `</template>` after it,
no later one has) and its lazy body ends at the first `</template>`. -/
def extractTemplate (content : Str) : Str :=
  match find? "<template>".toList content with
  | none => []
  | some i =>
    let rest := content.drop (i + "<template>".toList.length)
    match find? "</template>".toList rest with
    | none => []
    | some j => rest.take j

/-- `[...s.matchAll(/<NAME[^>]*>/g)]`, the matched texts in order: a match
starts where `<NAME` starts and a `>` follows somewhere, and ends at the first
such `>`; the scan resumes after the match. The first argument counts the
characters of a match still to be passed over. -/
def matchTags (name : Str) : Nat → Str → List Str
  | _, [] => []
  | skip + 1, _ :: cs => matchTags name skip cs
  | 0, c :: cs =>
    if ('<' :: name).isPrefixOf (c :: cs) then
      match find? ['>'] ((c :: cs).drop (name.length + 1)) with
      | some k =>
        (c :: cs).take (name.length + 1 + k + 1) ::
          matchTags name (name.length + 1 + k) cs
      | none => matchTags name 0 cs
    else matchTags name 0 cs

/-- `/<[^>]+>/.test(s)`: some `<` is followed by at least one character other
than `>` and then, later, by a `>`. -/
def hasMarkupTag : Str → Bool
  | [] => false
  | c :: cs =>
    (c == '<' &&
      (match cs with
       | [] => false
       | d :: ds => d != '>' && ds.contains '>')) || hasMarkupTag cs

/-! ## Issues -/

/-- An issue record `{line, type, message, suggestion}`. -/
structure Issue where
  line : Nat
  type : String
  message : String
  suggestion : String
  deriving DecidableEq, Repr

/-- The text `使用了scope但缺少<template #default="scope">包装`. -/
def scopeMessage : String := "使用了scope但缺少<template #default=\"scope\">包装"

/-- The text `包含自定义内容但可能缺少template包装`. -/
def customMessage : String := "包含自定义内容但可能缺少template包装"

/-- The text `缺少闭合标签</el-table-column>`. -/
def missingCloseMessage : String := "缺少闭合标签</el-table-column>"

/-- The text `使用了Vue 2的slot-scope语法`. -/
def slotScopeMessage : String := "使用了Vue 2的slot-scope语法"

/-- The template literal naming a component. -/
def componentMessage (comp : String) : String :=
  "组件<" ++ comp ++ ">在el-table-column中使用了scope但可能缺少template包装"

/-- The issue pushed at source lines 99-104. -/
def scopeIssue (lineNum : Nat) : Issue :=
  ⟨lineNum, "error", scopeMessage,
    "将自定义内容包装在<template #default=\"scope\">...</template>中"⟩

/-- The issue pushed at source lines 107-112. -/
def customIssue (lineNum : Nat) : Issue :=
  ⟨lineNum, "warning", customMessage,
    "考虑使用<template #default=\"scope\">包装自定义内容"⟩

/-- The issue pushed at source lines 118-123. -/
def missingCloseIssue (lineNum : Nat) : Issue :=
  ⟨lineNum, "error", missingCloseMessage, "在适当位置添加</el-table-column>"⟩

/-- The issue pushed at source lines 133-138. -/
def slotScopeIssue (lineNum : Nat) : Issue :=
  ⟨lineNum, "warning", slotScopeMessage,
    "在Vue 3中应该使用 #default=\"scope\" 或 v-slot:default=\"scope\""⟩

/-- The issue pushed at source lines 158-163. -/
def componentIssue (comp : String) (lineNum : Nat) : Issue :=
  ⟨lineNum, "error", componentMessage comp,
    "确保使用<template #default=\"scope\">包装"⟩

/-! ## `checkTableIssues` -/

/-- `content.substring(0, content.indexOf(tag)).split('\n').length`: the line
number given to an issue (source lines 81-82 and 153-154). -/
def lineNumOf (content tag : Str) : Nat :=
  (split '\n' (substring content 0 (indexOf content tag))).length

/-- `afterTag` of source line 87. -/
def afterTagOf (cleanTemplate tag : Str) : Str :=
  substringFrom cleanTemplate (indexOf cleanTemplate tag + tag.length)

/-- `contentBetween` of source lines 88-92, from `afterTag`. -/
def contentBetweenOf (afterTag : Str) : Str :=
  let nextColumnIndex := indexOf afterTag "<el-table-column".toList
  let closeTagIndex := indexOf afterTag "</el-table-column>".toList
  substring afterTag 0 (if closeTagIndex > -1 then closeTagIndex else nextColumnIndex)

/-- The issues of the custom-content check, source lines 94-115. -/
def contentIssues (lineNum : Nat) (contentBetween : Str) : List Issue :=
  if trim contentBetween ≠ [] then
    if !includes contentBetween "<template".toList then
      if includes contentBetween "scope.row".toList ||
          includes contentBetween "scope.$index".toList then
        [scopeIssue lineNum]
      else if hasMarkupTag contentBetween then
        [customIssue lineNum]
      else []
    else []
  else []

/-- The issues of the closing-tag check, source lines 117-124. -/
def closingIssues (lineNum : Nat) (afterTag : Str) : List Issue :=
  let nextColumnIndex := indexOf afterTag "<el-table-column".toList
  let closeTagIndex := indexOf afterTag "</el-table-column>".toList
  if closeTagIndex = -1 ∨ (nextColumnIndex > -1 ∧ nextColumnIndex < closeTagIndex) then
    [missingCloseIssue lineNum]
  else []

/-- The body of `matches.forEach` (source lines 79-126): the issues pushed for
one matched tag text. -/
def columnIssues (content cleanTemplate tag : Str) : List Issue :=
  let lineNum := lineNumOf content tag
  if !endsWith tag "/>".toList then
    let afterTag := afterTagOf cleanTemplate tag
    contentIssues lineNum (contentBetweenOf afterTag) ++ closingIssues lineNum afterTag
  else []

/-- The legacy slot syntax check, source lines 131-139. -/
def slotScopeIssues (content cleanTemplate : Str) : List Issue :=
  if includes cleanTemplate "slot-scope=".toList then
    [slotScopeIssue (split '\n' (splitHead content "slot-scope=".toList)).length]
  else []

/-- The constant `componentsNeedScope`. -/
def componentsNeedScope : List String :=
  ["dict-tag", "el-tag", "el-button", "el-switch", "el-link", "el-input"]

/-- The body of `compMatches.forEach` (source lines 147-166): the issues
pushed for one matched component tag text. -/
def componentIssues (content cleanTemplate : Str) (comp : String) (m : Str) :
    List Issue :=
  let beforeComp := substring cleanTemplate 0 (indexOf cleanTemplate m)
  let lastColumnTag := lastIndexOf beforeComp "<el-table-column".toList
  let lastTemplate := lastIndexOf beforeComp "<template".toList
  if lastColumnTag > -1 ∧ lastColumnTag > lastTemplate then
    if includes m "scope.row".toList || includes m "row.".toList then
      [componentIssue comp (lineNumOf content m)]
    else []
  else []

/-- The issues of the interactive component check, source lines 142-167. -/
def allComponentIssues (content cleanTemplate : Str) : List Issue :=
  componentsNeedScope.flatMap fun comp =>
    (matchTags comp.toList 0 cleanTemplate).flatMap
      (componentIssues content cleanTemplate comp)

/-- Model of `checkTableIssues`, on the content read from the file. -/
def checkTableIssues (content : Str) : List Issue :=
  let template := extractTemplate content
  if template = [] then []
  else
    let cleanTemplate := removeComments template
    (matchTags "el-table-column".toList 0 cleanTemplate).flatMap
        (columnIssues content cleanTemplate)
      ++ slotScopeIssues content cleanTemplate
      ++ allComponentIssues content cleanTemplate

/-! ## Vocabulary of the statements -/

/-- A matched target tag text `m` is properly closed in the region: it is
self-closing, or the first occurrence of `m` is followed by a
`</el-table-column>` before which no `<el-table-column` starts. -/
def ProperlyClosed (cleanTemplate m : Str) : Prop :=
  endsWith m "/>".toList = true ∨
  ∃ pre c post, cleanTemplate = pre ++ m ++ c ++ "</el-table-column>".toList ++ post ∧
    (∀ a b, cleanTemplate = a ++ m ++ b → pre.length ≤ a.length) ∧
    (∀ a b, c ++ "</el-table-column>".toList ++ post =
      a ++ "</el-table-column>".toList ++ b → c.length ≤ a.length) ∧
    (∀ a b, c ++ "</el-table-column>".toList ++ post =
      a ++ "<el-table-column".toList ++ b → c.length ≤ a.length)

/-- The region holds an empty column at the matched tag text `m`: `m` occurs
once, and only white space stands between it and a `</el-table-column>`. -/
def EmptyColumn (cleanTemplate m : Str) : Prop :=
  ∃ pre c post, cleanTemplate = pre ++ m ++ c ++ "</el-table-column>".toList ++ post ∧
    (∀ a b, cleanTemplate = a ++ m ++ b → a = pre) ∧
    ∀ x ∈ c, isWhiteSpace x = true

/-- The text `pre` before a component tag ends directly inside a column: some
`<el-table-column` occurs in it after every `<template` (in particular when
there is no `<template`), which is to say that the last `<el-table-column`
exists and lies after the last `<template`. -/
def DirectlyInColumn (pre : Str) : Prop :=
  ∃ a b, pre = a ++ "<el-table-column".toList ++ b ∧
    ∀ a2 b2, pre = a2 ++ "<template".toList ++ b2 → a2.length < a.length

/-- The tag text `m` contains `scope.row` or `row.`. -/
def RefersToRow (m : Str) : Prop :=
  (∃ a b, m = a ++ "scope.row".toList ++ b) ∨ (∃ a b, m = a ++ "row.".toList ++ b)

/-- No comment opener (`<!--`, `//`, `/*`) occurs in the text. -/
def NoCommentOpener (s : Str) : Prop :=
  (∀ a b, s ≠ a ++ "<!--".toList ++ b) ∧ (∀ a b, s ≠ a ++ "//".toList ++ b) ∧
    (∀ a b, s ≠ a ++ "/*".toList ++ b)

/-- The pipeline in the order of the specification's data flow: raw text,
comment stripper, region extractor, then the tag scanner and the issue
classifier on that region. Line numbers are taken in the raw text. -/
def checkTableIssuesStripFirst (content : Str) : List Issue :=
  let template := extractTemplate (removeComments content)
  if template = [] then []
  else
    (matchTags "el-table-column".toList 0 template).flatMap (columnIssues content template)
      ++ slotScopeIssues content template
      ++ allComponentIssues content template

/-- The detection rule an issue comes from, by its message: 0 for the per-tag
checks, 1 for the legacy slot check, 2 for the interactive component check. -/
def ruleRank (i : Issue) : Nat :=
  if i.message = scopeMessage ∨ i.message = customMessage ∨
      i.message = missingCloseMessage then 0
  else if i.message = slotScopeMessage then 1
  else 2

/-- The text contains a markup tag: a `<`, one or more characters other than
`>`, then a `>`. -/
def HasMarkup (c : Str) : Prop :=
  ∃ a body e, c = a ++ '<' :: body ++ '>' :: e ∧ body ≠ [] ∧ '>' ∉ body

/-- Two neighbouring characters are not both `/`. -/
def NoSlashPair (x y : Char) : Prop := ¬ (x = '/' ∧ y = '/')

/-! ## The summary of `main` -/

/-- The counters of `main` (source lines 202-205): `totalIssues`, `errorCount`,
`warningCount` and the list `filesWithIssues` of `{file, issues}` records. -/
structure ScanSummary where
  totalIssues : Nat
  errorCount : Nat
  warningCount : Nat
  filesWithIssues : List (String × List Issue)
  deriving DecidableEq, Repr

/-- The body of `vueFiles.forEach` in `main` (source lines 207-225), as far as
the counters go, on a file given by its relative path and its content. -/
def scanFile (acc : ScanSummary) (file : String × Str) : ScanSummary :=
  let issues := checkTableIssues file.2
  if issues.length > 0 then
    { totalIssues := acc.totalIssues + issues.length
      errorCount := acc.errorCount + (issues.filter (fun i => i.type = "error")).length
      warningCount := acc.warningCount + (issues.filter (fun i => i.type = "warning")).length
      filesWithIssues := acc.filesWithIssues ++ [(file.1, issues)] }
  else acc

/-- The counters of `main` after the scan of the files, in scan order. -/
def scanSummary (files : List (String × Str)) : ScanSummary :=
  files.foldl scanFile ⟨0, 0, 0, []⟩

/-- The tag scanner and the issue classifier on a cleaned region (source lines
73-169): per-tag issues, legacy slot warning, interactive component errors. -/
def regionIssues (content cleanTemplate : Str) : List Issue :=
  (matchTags "el-table-column".toList 0 cleanTemplate).flatMap
      (columnIssues content cleanTemplate)
    ++ slotScopeIssues content cleanTemplate
    ++ allComponentIssues content cleanTemplate

/-- The lines of a text: the pieces between its line terminators. -/
def linesOf : Str → List Str
  | [] => [[]]
  | c :: cs =>
    if isLineTerminator c then [] :: linesOf cs
    else
      match linesOf cs with
      | [] => [[c]]
      | p :: ps => (c :: p) :: ps

/-- The line terminators of a text, in order. -/
def terminatorsOf (s : Str) : List Char := s.filter isLineTerminator

/-- Lines put together again, each followed by its line terminator. -/
def joinLines : List Str → List Char → Str
  | [], _ => []
  | l :: _, [] => l
  | l :: ls, t :: ts => l ++ t :: joinLines ls ts

/-- The line comment rule in the words of the specification, "line comments
beginning `//` to end of line (per line)": every line is cut at its first
`//`, and the line terminators stay. -/
def cutLineComments (s : Str) : Str :=
  joinLines ((linesOf s).map (fun l => splitHead l "//".toList)) (terminatorsOf s)

/-! ## Lemmas on the string primitives -/

theorem isPrefixOf_eq_true_iff {pat s : Str} :
    pat.isPrefixOf s = true ↔ ∃ b, s = pat ++ b := by
  rw [List.isPrefixOf_iff_prefix]
  constructor
  · rintro ⟨b, hb⟩; exact ⟨b, hb.symm⟩
  · rintro ⟨b, hb⟩; exact ⟨b, hb.symm⟩

theorem find?_of_isPrefixOf {pat s : Str} (h : pat.isPrefixOf s = true) :
    find? pat s = some 0 := by
  cases s with
  | nil => simp [find?, h]
  | cons c cs => simp [find?, h]

/-- A successful search returns the position of an occurrence, and no
occurrence starts earlier. -/
theorem find?_some_split {pat : Str} :
    ∀ {s : Str} {k : Nat}, find? pat s = some k →
      ∃ a b, s = a ++ pat ++ b ∧ a.length = k ∧
        ∀ a2 b2, s = a2 ++ pat ++ b2 → k ≤ a2.length := by
  intro s
  induction s with
  | nil =>
    intro k h
    simp only [find?] at h
    split at h
    · rename_i hp
      obtain ⟨b, hb⟩ := isPrefixOf_eq_true_iff.1 hp
      injection h with h
      subst h
      exact ⟨[], b, by simpa using hb, rfl, fun _ _ _ => Nat.zero_le _⟩
    · exact absurd h (by simp)
  | cons c cs ih =>
    intro k h
    simp only [find?] at h
    split at h
    · rename_i hp
      obtain ⟨b, hb⟩ := isPrefixOf_eq_true_iff.1 hp
      injection h with h
      subst h
      exact ⟨[], b, by simpa using hb, rfl, fun _ _ _ => Nat.zero_le _⟩
    · rename_i hp
      cases hf : find? pat cs with
      | none => simp [hf] at h
      | some j =>
        simp only [hf, Option.map_some', Option.some.injEq] at h
        obtain ⟨a, b, hs, hlen, hmin⟩ := ih hf
        refine ⟨c :: a, b, by simp [hs], by simp [hlen, h], ?_⟩
        intro a2 b2 h2
        cases a2 with
        | nil =>
          exfalso
          apply hp
          exact isPrefixOf_eq_true_iff.2 ⟨b2, by simpa using h2⟩
        | cons x a3 =>
          simp only [List.cons_append, List.cons.injEq] at h2
          have := hmin a3 b2 h2.2
          simp only [List.length_cons]
          omega

/-- A failed search means that the pattern does not occur. -/
theorem find?_none_split {pat : Str} :
    ∀ {s : Str}, find? pat s = none → ∀ a b, s ≠ a ++ pat ++ b := by
  intro s
  induction s with
  | nil =>
    intro h a b hs
    simp only [find?] at h
    split at h
    · simp at h
    · rename_i hp
      apply hp
      have h1 : a = [] := by
        cases a with
        | nil => rfl
        | cons x a3 => simp at hs
      subst h1
      exact isPrefixOf_eq_true_iff.2 ⟨b, by simpa using hs⟩
  | cons c cs ih =>
    intro h a b hs
    simp only [find?] at h
    split at h
    · simp at h
    · rename_i hp
      cases hf : find? pat cs with
      | some j => simp [hf] at h
      | none =>
        cases a with
        | nil =>
          apply hp
          exact isPrefixOf_eq_true_iff.2 ⟨b, by simpa using hs⟩
        | cons x a3 =>
          simp only [List.cons_append, List.cons.injEq] at hs
          exact ih hf a3 b hs.2

/-- The search finds the first occurrence. -/
theorem find?_of_first {pat a b : Str}
    (hmin : ∀ a2 b2, a ++ pat ++ b = a2 ++ pat ++ b2 → a.length ≤ a2.length) :
    find? pat (a ++ pat ++ b) = some a.length := by
  cases hf : find? pat (a ++ pat ++ b) with
  | none => exact absurd rfl (find?_none_split hf a b)
  | some k =>
    obtain ⟨a1, b1, hs, hlen, hk⟩ := find?_some_split hf
    have h1 := hmin a1 b1 hs
    have h2 := hk a b rfl
    congr 1
    omega

theorem find?_isSome_iff {pat s : Str} :
    (find? pat s).isSome = true ↔ ∃ a b, s = a ++ pat ++ b := by
  constructor
  · intro h
    cases hf : find? pat s with
    | none => simp [hf] at h
    | some k =>
      obtain ⟨a, b, hs, _, _⟩ := find?_some_split hf
      exact ⟨a, b, hs⟩
  · rintro ⟨a, b, hs⟩
    cases hf : find? pat s with
    | none => exact absurd hs (find?_none_split hf a b)
    | some k => rfl

theorem includes_iff {s pat : Str} :
    includes s pat = true ↔ ∃ a b, s = a ++ pat ++ b := by
  unfold includes
  exact find?_isSome_iff

theorem indexOf_of_find? {s pat : Str} {k : Nat} (h : find? pat s = some k) :
    indexOf s pat = (k : Int) := by
  simp [indexOf, h]

theorem indexOf_of_none {s pat : Str} (h : find? pat s = none) :
    indexOf s pat = -1 := by
  simp [indexOf, h]

theorem indexOf_ge {s pat : Str} : -1 ≤ indexOf s pat := by
  unfold indexOf
  cases find? pat s with
  | none => simp
  | some k => simp only; omega

theorem substring_zero_nat (s : Str) (k : Nat) : substring s 0 (k : Int) = s.take k := by
  simp only [substring, Int.toNat_zero, Int.toNat_ofNat, Nat.zero_le, Nat.min_eq_left,
    List.drop_zero, Nat.sub_zero, Nat.zero_min, Nat.zero_max]
  rcases Nat.le_total k s.length with h | h
  · rw [Nat.min_eq_left h]
  · rw [Nat.min_eq_right h, List.take_of_length_le h, List.take_of_length_le (Nat.le_refl _)]

theorem substring_zero_neg_one (s : Str) : substring s 0 (-1) = [] := by
  simp [substring]

theorem substringFrom_nat (s : Str) (k : Nat) : substringFrom s (k : Int) = s.drop k := by
  simp only [substringFrom, Int.toNat_ofNat]
  rcases Nat.le_total k s.length with h | h
  · rw [Nat.min_eq_left h]
  · rw [Nat.min_eq_right h, List.drop_of_length_le h, List.drop_of_length_le (Nat.le_refl _)]

theorem split_length (sep : Char) (s : Str) : (split sep s).length = s.count sep + 1 := by
  induction s with
  | nil => simp [split]
  | cons c cs ih =>
    simp only [split]
    by_cases h : c = sep
    · subst h
      simp [ih]
    · rw [if_neg h]
      have hc : (c :: cs).count sep = cs.count sep := by
        rw [List.count_cons_of_ne]
        exact fun h2 => h h2.symm
      cases hs : split sep cs with
      | nil => rw [hs] at ih; simp at ih
      | cons p ps =>
        rw [hs] at ih
        simp only [List.length_cons] at ih ⊢
        omega

theorem trim_eq_nil_of_all {s : Str} (h : ∀ c ∈ s, isWhiteSpace c = true) : trim s = [] := by
  have : s.dropWhile isWhiteSpace = [] := by
    rw [List.dropWhile_eq_nil_iff]
    exact h
  simp [trim, this]

theorem trim_ne_nil_of_mem {s : Str} {c : Char} (hc : c ∈ s) (hw : isWhiteSpace c = false) :
    trim s ≠ [] := by
  intro h
  unfold trim at h
  rw [List.reverse_eq_nil_iff, List.dropWhile_eq_nil_iff] at h
  have h1 : ∀ x ∈ s.dropWhile isWhiteSpace, isWhiteSpace x = true := by
    intro x hx
    exact h x (List.mem_reverse.2 hx)
  have h2 : ∀ (l : Str), c ∈ l → (∀ x ∈ l.dropWhile isWhiteSpace, isWhiteSpace x = true) → False := by
    intro l
    induction l with
    | nil => intro hc; simp at hc
    | cons y ys ih =>
      intro hc hall
      by_cases hy : isWhiteSpace y = true
      · rw [List.dropWhile_cons_of_pos hy] at hall
        rcases List.mem_cons.1 hc with rfl | hc2
        · rw [hy] at hw; exact absurd hw (by simp)
        · exact ih hc2 hall
      · rw [List.dropWhile_cons_of_neg hy] at hall
        exact hy (hall y (List.mem_cons_self _ _))
  exact h2 s hc h1

/-- A failed backward search means that the pattern does not occur. -/
theorem findLast?_none_split {pat : Str} :
    ∀ {s : Str}, findLast? pat s = none → ∀ a b, s ≠ a ++ pat ++ b := by
  intro s
  induction s with
  | nil =>
    intro h a b hs
    simp only [findLast?] at h
    split at h
    · simp at h
    · rename_i hp
      apply hp
      have h1 : a = [] := by
        cases a with
        | nil => rfl
        | cons x a3 => simp at hs
      subst h1
      exact isPrefixOf_eq_true_iff.2 ⟨b, by simpa using hs⟩
  | cons c cs ih =>
    intro h a b hs
    simp only [findLast?] at h
    split at h
    · simp at h
    · rename_i hf
      split at h
      · simp at h
      · rename_i hp
        cases a with
        | nil =>
          apply hp
          exact isPrefixOf_eq_true_iff.2 ⟨b, by simpa using hs⟩
        | cons x a3 =>
          simp only [List.cons_append, List.cons.injEq] at hs
          exact ih hf a3 b hs.2

/-- A successful backward search returns the position of an occurrence, and no
occurrence starts later. -/
theorem findLast?_some_split {pat : Str} :
    ∀ {s : Str} {k : Nat}, findLast? pat s = some k →
      ∃ a b, s = a ++ pat ++ b ∧ a.length = k ∧
        ∀ a2 b2, s = a2 ++ pat ++ b2 → a2.length ≤ k := by
  intro s
  induction s with
  | nil =>
    intro k h
    simp only [findLast?] at h
    split at h
    · rename_i hp
      obtain ⟨b, hb⟩ := isPrefixOf_eq_true_iff.1 hp
      injection h with h
      subst h
      refine ⟨[], b, by simpa using hb, rfl, ?_⟩
      intro a2 b2 h2
      cases a2 with
      | nil => simp
      | cons x a3 => simp at h2
    · exact absurd h (by simp)
  | cons c cs ih =>
    intro k h
    simp only [findLast?] at h
    split at h
    · rename_i j hf
      injection h with h
      subst h
      obtain ⟨a, b, hs, hlen, hmax⟩ := ih hf
      refine ⟨c :: a, b, by simp [hs], by simp [hlen], ?_⟩
      intro a2 b2 h2
      cases a2 with
      | nil => simp
      | cons x a3 =>
        simp only [List.cons_append, List.cons.injEq] at h2
        have := hmax a3 b2 h2.2
        simpa using this
    · rename_i hf
      split at h
      · rename_i hp
        obtain ⟨b, hb⟩ := isPrefixOf_eq_true_iff.1 hp
        injection h with h
        subst h
        refine ⟨[], b, by simpa using hb, rfl, ?_⟩
        intro a2 b2 h2
        cases a2 with
        | nil => simp
        | cons x a3 =>
          simp only [List.cons_append, List.cons.injEq] at h2
          exact absurd h2.2 (findLast?_none_split hf a3 b2)
      · exact absurd h (by simp)

/-- When the forward and the backward search agree, the pattern occurs once. -/
theorem unique_of_find?_eq_findLast? {pat s : Str} {k : Nat}
    (h1 : find? pat s = some k) (h2 : findLast? pat s = some k) :
    ∀ a b, s = a ++ pat ++ b → a = s.take k := by
  intro a b hs
  obtain ⟨_, _, _, _, hmin⟩ := find?_some_split h1
  obtain ⟨_, _, _, _, hmax⟩ := findLast?_some_split h2
  have hk : a.length = k := Nat.le_antisymm (hmax a b hs) (hmin a b hs)
  rw [hs, List.append_assoc, List.take_append_of_le_length (by omega), ← hk, List.take_length]

/-- The text after the first occurrence of a tag text. -/
theorem afterTagOf_of_first {clean pre tag rest : Str} (hs : clean = pre ++ tag ++ rest)
    (hmin : ∀ a b, clean = a ++ tag ++ b → pre.length ≤ a.length) :
    afterTagOf clean tag = rest := by
  subst hs
  have hf := find?_of_first hmin
  unfold afterTagOf
  rw [indexOf_of_find? hf]
  have : ((pre.length : Int) + (tag.length : Int)) = ((pre.length + tag.length : Nat) : Int) := by
    simp
  rw [this, substringFrom_nat]
  rw [← List.length_append, List.drop_left]

/-- When a closing tag follows, `contentBetween` is the text up to the first
closing tag. -/
theorem contentBetweenOf_of_close {c post : Str}
    (hmin : ∀ a b, c ++ "</el-table-column>".toList ++ post =
      a ++ "</el-table-column>".toList ++ b → c.length ≤ a.length) :
    contentBetweenOf (c ++ "</el-table-column>".toList ++ post) = c := by
  have hf := find?_of_first hmin
  unfold contentBetweenOf
  simp only
  rw [indexOf_of_find? hf, if_pos (by omega), substring_zero_nat, List.append_assoc,
    List.take_left]

/-- When no closing tag follows, `contentBetween` is the text up to the next
opening, and empty when there is none either. -/
theorem contentBetweenOf_of_no_close {afterTag : Str}
    (hno : find? "</el-table-column>".toList afterTag = none) :
    contentBetweenOf afterTag =
      match find? "<el-table-column".toList afterTag with
      | some k => afterTag.take k
      | none => [] := by
  unfold contentBetweenOf
  simp only
  rw [indexOf_of_none hno, if_neg (by decide)]
  cases hf : find? "<el-table-column".toList afterTag with
  | none => rw [indexOf_of_none hf, substring_zero_neg_one]
  | some k => rw [indexOf_of_find? hf, substring_zero_nat]

theorem removeDelimited_nil (op cl : Str) (n : Nat) : removeDelimited op cl n [] = [] := by
  cases n <;> rfl

theorem removeComments_nil : removeComments [] = [] := by
  simp [removeComments, removeDelimited_nil, removeLineComments]

/-- A region in which a tag is matched comes from a non-empty template. -/
theorem template_ne_nil_of_match {content name tag : Str}
    (h : tag ∈ matchTags name 0 (removeComments (extractTemplate content))) :
    extractTemplate content ≠ [] := by
  intro h0
  rw [h0, removeComments_nil] at h
  simp [matchTags] at h

/-- No occurrence starts before the position a successful search returns. -/
theorem find?_some_le {pat s : Str} {k : Nat} (h : find? pat s = some k) :
    ∀ a b, s = a ++ pat ++ b → k ≤ a.length := by
  obtain ⟨_, _, _, _, hmin⟩ := find?_some_split h
  exact hmin

/-! ## Lemmas on the tag scanner -/

/-- Shape of a successful match at the head of the text. -/
theorem match_head_shape {name s : Str} {k : Nat}
    (hp : ('<' :: name).isPrefixOf s = true)
    (hf : find? ['>'] (s.drop (name.length + 1)) = some k) :
    ∃ body b, s = '<' :: name ++ body ++ ['>'] ++ b ∧ body.length = k ∧
      s.take (name.length + 1 + k + 1) = '<' :: name ++ body ++ ['>'] := by
  obtain ⟨r, hr⟩ := isPrefixOf_eq_true_iff.1 hp
  subst hr
  have hd : (('<' :: name) ++ r).drop (name.length + 1) = r := by
    rw [List.drop_append_of_le_length (by simp)]
    simp
  rw [hd] at hf
  obtain ⟨body, b, hs, hlen, _⟩ := find?_some_split hf
  subst hs
  refine ⟨body, b, by simp, hlen, ?_⟩
  have : ('<' :: name ++ (body ++ ['>'] ++ b)) = ('<' :: name ++ body ++ ['>']) ++ b := by simp
  rw [this, List.take_append_of_le_length (by simp [hlen]; omega)]
  rw [List.take_of_length_le]
  simp [hlen]
  omega

/-- Every match reads `<NAME`, some text, `>`. -/
theorem matchTags_mem_shape {name : Str} :
    ∀ {s : Str} {skip : Nat} {m : Str}, m ∈ matchTags name skip s →
      ∃ body, m = '<' :: name ++ body ++ ['>'] := by
  intro s
  induction s with
  | nil => intro skip m h; cases skip <;> simp [matchTags] at h
  | cons c cs ih =>
    intro skip m h
    cases skip with
    | succ n => exact ih (by simpa [matchTags] using h)
    | zero =>
      simp only [matchTags] at h
      split at h
      · rename_i hp
        split at h
        · rename_i k hf
          obtain ⟨body, b, _, _, htake⟩ := match_head_shape hp hf
          rcases List.mem_cons.1 h with h1 | h1
          · exact ⟨body, by rw [h1, htake]⟩
          · exact ih h1
        · exact ih h
      · exact ih h

/-- Every match is an occurrence in the scanned text, beyond the characters
still to be passed over. -/
theorem matchTags_mem_split {name : Str} :
    ∀ {s : Str} {skip : Nat} {m : Str}, m ∈ matchTags name skip s →
      ∃ a b, s = a ++ m ++ b ∧ skip ≤ a.length := by
  intro s
  induction s with
  | nil => intro skip m h; cases skip <;> simp [matchTags] at h
  | cons c cs ih =>
    intro skip m h
    have lift : ∀ n, m ∈ matchTags name n cs →
        ∃ a b, c :: cs = a ++ m ++ b ∧ n + 1 ≤ a.length := by
      intro n hn
      obtain ⟨a, b, hs, hle⟩ := ih hn
      exact ⟨c :: a, b, by simp [hs], by simp [hle]⟩
    cases skip with
    | succ n => exact lift n (by simpa [matchTags] using h)
    | zero =>
      simp only [matchTags] at h
      split at h
      · rename_i hp
        split at h
        · rename_i k hf
          obtain ⟨body, b, hs, _, htake⟩ := match_head_shape hp hf
          rcases List.mem_cons.1 h with h1 | h1
          · refine ⟨[], b, ?_, Nat.zero_le _⟩
            rw [h1, htake, hs]
            simp
          · obtain ⟨a, b2, hs2, _⟩ := lift _ h1
            exact ⟨a, b2, hs2, Nat.zero_le _⟩
        · obtain ⟨a, b2, hs2, _⟩ := lift _ h
          exact ⟨a, b2, hs2, Nat.zero_le _⟩
      · obtain ⟨a, b2, hs2, _⟩ := lift _ h
        exact ⟨a, b2, hs2, Nat.zero_le _⟩

/-- A text that starts with a match text is matched at its head. -/
theorem match_head_of_shape {name body b : Str} :
    ('<' :: name).isPrefixOf ('<' :: name ++ body ++ ['>'] ++ b) = true ∧
    ∃ k, find? ['>'] (('<' :: name ++ body ++ ['>'] ++ b).drop (name.length + 1)) = some k := by
  constructor
  · exact isPrefixOf_eq_true_iff.2 ⟨body ++ ['>'] ++ b, by simp⟩
  · have hd : ('<' :: name ++ body ++ ['>'] ++ b).drop (name.length + 1) = body ++ ['>'] ++ b := by
      have : ('<' :: name ++ body ++ ['>'] ++ b) = ('<' :: name) ++ (body ++ ['>'] ++ b) := by simp
      rw [this, List.drop_append_of_le_length (by simp)]
      simp
    rw [hd]
    cases hf : find? ['>'] (body ++ ['>'] ++ b) with
    | none => exact absurd rfl (find?_none_split hf body b)
    | some k => exact ⟨k, rfl⟩

/-- The first match reported from a scan is the first occurrence of its text
beyond the characters still to be passed over. -/
theorem matchTags_head_first {name : Str} :
    ∀ {s : Str} {skip : Nat} {m : Str} {rest : List Str},
      matchTags name skip s = m :: rest →
      ∃ a b, s = a ++ m ++ b ∧ skip ≤ a.length ∧
        ∀ a2 b2, s = a2 ++ m ++ b2 → skip ≤ a2.length → a.length ≤ a2.length := by
  intro s
  induction s with
  | nil => intro skip m rest h; cases skip <;> simp [matchTags] at h
  | cons c cs ih =>
    intro skip m rest h
    have lift : ∀ n, matchTags name n cs = m :: rest →
        ∃ a b, c :: cs = a ++ m ++ b ∧ n + 1 ≤ a.length ∧
          ∀ a2 b2, c :: cs = a2 ++ m ++ b2 → 1 ≤ a2.length → n + 1 ≤ a2.length →
            a.length ≤ a2.length := by
      intro n hn
      obtain ⟨a, b, hs, hle, hmin⟩ := ih hn
      refine ⟨c :: a, b, by simp [hs], by simp [hle], ?_⟩
      intro a2 b2 h2 h1 hn2
      cases a2 with
      | nil => simp at h1
      | cons x a3 =>
        simp only [List.cons_append, List.cons.injEq] at h2
        have := hmin a3 b2 h2.2 (by simpa using hn2)
        simpa using this
    have nohead : ∀ a2 b2, c :: cs = a2 ++ m ++ b2 → a2 = [] →
        (('<' :: name).isPrefixOf (c :: cs) = true ∧
          ∃ k, find? ['>'] ((c :: cs).drop (name.length + 1)) = some k) := by
      intro a2 b2 h2 ha
      subst ha
      obtain ⟨body, hm⟩ := matchTags_mem_shape (by rw [h]; exact List.mem_cons_self _ _ : m ∈ matchTags name skip (c :: cs))
      rw [h2, hm]
      simpa using @match_head_of_shape name body b2
    cases skip with
    | succ n =>
      obtain ⟨a, b, hs, hle, hmin⟩ := lift n (by simpa [matchTags] using h)
      exact ⟨a, b, hs, hle, fun a2 b2 h2 hn2 => hmin a2 b2 h2 (by omega) hn2⟩
    | zero =>
      have fromTail : matchTags name 0 cs = m :: rest →
          ((('<' :: name).isPrefixOf (c :: cs) = true ∧
            ∃ k, find? ['>'] ((c :: cs).drop (name.length + 1)) = some k) → False) →
          ∃ a b, c :: cs = a ++ m ++ b ∧ 0 ≤ a.length ∧
            ∀ a2 b2, c :: cs = a2 ++ m ++ b2 → 0 ≤ a2.length → a.length ≤ a2.length := by
        intro ht hno
        obtain ⟨a, b, hs, _, hmin⟩ := lift 0 ht
        refine ⟨a, b, hs, Nat.zero_le _, ?_⟩
        intro a2 b2 h2 _
        cases a2 with
        | nil => exact absurd (nohead [] b2 h2 rfl) hno
        | cons x a3 => exact hmin (x :: a3) b2 h2 (by simp) (by simp)
      simp only [matchTags] at h
      split at h
      · rename_i hp
        split at h
        · rename_i k hf
          obtain ⟨body, b, hs, _, htake⟩ := match_head_shape hp hf
          injection h with h1 h2
          refine ⟨[], b, ?_, Nat.zero_le _, fun _ _ _ _ => Nat.zero_le _⟩
          rw [← h1, htake, hs]
          simp
        · rename_i hf
          exact fromTail h (fun ⟨_, k, hk⟩ => by rw [hk] at hf; exact Option.noConfusion hf)
      · rename_i hp
        exact fromTail h (fun ⟨hp2, _⟩ => hp hp2)

/-- A tag text with a single occurrence in the text is matched at most once. -/
theorem matchTags_count_le_one {name tag : Str} :
    ∀ {s : Str} {skip : Nat},
      (∀ a b a2 b2, s = a ++ tag ++ b → s = a2 ++ tag ++ b2 → a.length = a2.length) →
      (matchTags name skip s).count tag ≤ 1 := by
  intro s
  induction s with
  | nil => intro skip _; cases skip <;> simp [matchTags]
  | cons c cs ih =>
    intro skip huniq
    have htail : ∀ a b a2 b2, cs = a ++ tag ++ b → cs = a2 ++ tag ++ b2 →
        a.length = a2.length := by
      intro a b a2 b2 h1 h2
      have := huniq (c :: a) b (c :: a2) b2 (by simp [h1]) (by simp [← h2])
      simpa using this
    cases skip with
    | succ n => simpa [matchTags] using @ih n htail
    | zero =>
      simp only [matchTags]
      split
      · rename_i hp
        split
        · rename_i k hf
          obtain ⟨body, b, hs, _, htake⟩ := match_head_shape hp hf
          by_cases ht : (c :: cs).take (name.length + 1 + k + 1) = tag
          · have hnot : tag ∉ matchTags name (name.length + 1 + k) cs := by
              intro hmem
              obtain ⟨a, b2, hs2, _⟩ := matchTags_mem_split hmem
              have h0 : c :: cs = [] ++ tag ++ b := by
                rw [← ht, htake, hs]; simp
              have := huniq [] b (c :: a) b2 h0 (by simp [hs2])
              simp at this
            rw [ht, List.count_cons_self, List.count_eq_zero_of_not_mem hnot]
          · rw [List.count_cons_of_ne (fun h => ht h.symm)]
            exact ih htail
        · exact ih htail
      · exact ih htail

/-! ## Lemmas on the issue records -/

theorem componentMessage_ne_scope {comp : String} (h : comp ∈ componentsNeedScope) :
    componentMessage comp ≠ scopeMessage := by
  simp only [componentsNeedScope, List.mem_cons, List.mem_singleton, List.not_mem_nil,
    or_false] at h
  rcases h with rfl | rfl | rfl | rfl | rfl | rfl <;> decide

theorem componentMessage_ne_custom {comp : String} (h : comp ∈ componentsNeedScope) :
    componentMessage comp ≠ customMessage := by
  simp only [componentsNeedScope, List.mem_cons, List.mem_singleton, List.not_mem_nil,
    or_false] at h
  rcases h with rfl | rfl | rfl | rfl | rfl | rfl <;> decide

theorem componentMessage_ne_missingClose {comp : String} (h : comp ∈ componentsNeedScope) :
    componentMessage comp ≠ missingCloseMessage := by
  simp only [componentsNeedScope, List.mem_cons, List.mem_singleton, List.not_mem_nil,
    or_false] at h
  rcases h with rfl | rfl | rfl | rfl | rfl | rfl <;> decide

theorem componentMessage_ne_slotScope {comp : String} (h : comp ∈ componentsNeedScope) :
    componentMessage comp ≠ slotScopeMessage := by
  simp only [componentsNeedScope, List.mem_cons, List.mem_singleton, List.not_mem_nil,
    or_false] at h
  rcases h with rfl | rfl | rfl | rfl | rfl | rfl <;> decide

/-- What the custom-content check can push. -/
theorem contentIssues_cases (lineNum : Nat) (c : Str) :
    contentIssues lineNum c = [] ∨ contentIssues lineNum c = [scopeIssue lineNum] ∨
      contentIssues lineNum c = [customIssue lineNum] := by
  unfold contentIssues
  split
  · split
    · split
      · exact Or.inr (Or.inl rfl)
      · split
        · exact Or.inr (Or.inr rfl)
        · exact Or.inl rfl
    · exact Or.inl rfl
  · exact Or.inl rfl

/-- What the closing-tag check can push. -/
theorem closingIssues_cases (lineNum : Nat) (afterTag : Str) :
    closingIssues lineNum afterTag = [] ∨
      closingIssues lineNum afterTag = [missingCloseIssue lineNum] := by
  unfold closingIssues
  simp only
  split
  · exact Or.inr rfl
  · exact Or.inl rfl

/-- Every per-tag issue is one of the three structural issues, at the line of
the tag. -/
theorem mem_columnIssues {content clean tag : Str} {i : Issue}
    (h : i ∈ columnIssues content clean tag) :
    i = scopeIssue (lineNumOf content tag) ∨ i = customIssue (lineNumOf content tag) ∨
      i = missingCloseIssue (lineNumOf content tag) := by
  unfold columnIssues at h
  simp only at h
  split at h
  · rcases List.mem_append.1 h with h1 | h1
    · rcases contentIssues_cases (lineNumOf content tag)
        (contentBetweenOf (afterTagOf clean tag)) with h2 | h2 | h2
      · rw [h2] at h1; simp at h1
      · rw [h2] at h1; exact Or.inl (by simpa using h1)
      · rw [h2] at h1; exact Or.inr (Or.inl (by simpa using h1))
    · rcases closingIssues_cases (lineNumOf content tag) (afterTagOf clean tag) with h2 | h2
      · rw [h2] at h1; simp at h1
      · rw [h2] at h1; exact Or.inr (Or.inr (by simpa using h1))
  · simp at h

/-- Every issue of the legacy slot check is the legacy slot warning. -/
theorem mem_slotScopeIssues {content clean : Str} {i : Issue}
    (h : i ∈ slotScopeIssues content clean) : i.message = slotScopeMessage := by
  unfold slotScopeIssues at h
  split at h
  · rw [List.mem_singleton.1 h]; rfl
  · simp at h

/-- Every issue of the interactive component check names a component of the
fixed list. -/
theorem mem_allComponentIssues {content clean : Str} {i : Issue}
    (h : i ∈ allComponentIssues content clean) :
    ∃ comp ∈ componentsNeedScope, ∃ m ∈ matchTags comp.toList 0 clean,
      i = componentIssue comp (lineNumOf content m) := by
  unfold allComponentIssues at h
  rw [List.mem_flatMap] at h
  obtain ⟨comp, hcomp, h⟩ := h
  rw [List.mem_flatMap] at h
  obtain ⟨m, hm, h⟩ := h
  refine ⟨comp, hcomp, m, hm, ?_⟩
  unfold componentIssues at h
  simp only at h
  split at h
  · split at h
    · exact List.mem_singleton.1 h
    · simp at h
  · simp at h

/-- The issue list of a file with a non-empty template region. -/
theorem checkTableIssues_eq {content : Str} (h : extractTemplate content ≠ []) :
    checkTableIssues content =
      (matchTags "el-table-column".toList 0 (removeComments (extractTemplate content))).flatMap
          (columnIssues content (removeComments (extractTemplate content)))
        ++ slotScopeIssues content (removeComments (extractTemplate content))
        ++ allComponentIssues content (removeComments (extractTemplate content)) := by
  unfold checkTableIssues
  simp only
  rw [if_neg h]

theorem scopeMessage_ne_custom : scopeMessage ≠ customMessage := by decide

theorem scopeMessage_ne_missingClose : scopeMessage ≠ missingCloseMessage := by decide

theorem scopeMessage_ne_slotScope : scopeMessage ≠ slotScopeMessage := by decide

theorem customMessage_ne_missingClose : customMessage ≠ missingCloseMessage := by decide

theorem customMessage_ne_slotScope : customMessage ≠ slotScopeMessage := by decide

theorem missingCloseMessage_ne_slotScope : missingCloseMessage ≠ slotScopeMessage := by decide

/-- Filtering a scope error followed by the result of the closing-tag check. -/
theorem filter_scope_closing (ln : Nat) (l : List Issue)
    (h : l = [] ∨ l = [missingCloseIssue ln]) :
    (scopeIssue ln :: l).filter (fun i => i.message = scopeMessage) = [scopeIssue ln] ∧
      (scopeIssue ln :: l).filter (fun i => i.message = customMessage) = [] := by
  have h1 : decide ((scopeIssue ln).message = scopeMessage) = true := by
    simp [scopeIssue]
  have h2 : decide ((scopeIssue ln).message = customMessage) = false := by
    simpa [scopeIssue] using scopeMessage_ne_custom
  have h3 : decide ((missingCloseIssue ln).message = scopeMessage) = false := by
    simpa [missingCloseIssue] using scopeMessage_ne_missingClose.symm
  have h4 : decide ((missingCloseIssue ln).message = customMessage) = false := by
    simpa [missingCloseIssue] using customMessage_ne_missingClose.symm
  rcases h with rfl | rfl
  · simp only [List.filter, h1, h2, and_self]
  · simp only [List.filter, h1, h2, h3, h4, and_self]

/-! ## Per-tag structural checks -/

/-- C1: for a non-self-closing `<el-table-column ...>` match whose text occurs
once in the comment-stripped region and is followed by `</el-table-column>`,
when the text `c` up to that closing tag is non-empty after trimming, has no
`<template` and contains `scope.row` or `scope.$index`, the per-tag checks
push exactly one scope-without-wrapper issue, of type `error`, at the line of
the tag, and no custom-content warning; the tag is matched once and what it
pushes is part of the list `checkTableIssues` returns. Nothing is asked of the
markup inside `c`, so a nested `<span>` changes nothing. -/
theorem scope_without_wrapper_error (content clean pre tag c post : Str)
    (hclean : removeComments (extractTemplate content) = clean)
    (hsplit : clean = pre ++ tag ++ c ++ "</el-table-column>".toList ++ post)
    (hmatch : tag ∈ matchTags "el-table-column".toList 0 clean)
    (hopen : endsWith tag "/>".toList = false)
    (honce : ∀ a b, clean = a ++ tag ++ b → a = pre)
    (hclose : ∀ a b, c ++ "</el-table-column>".toList ++ post =
      a ++ "</el-table-column>".toList ++ b → c.length ≤ a.length)
    (htrim : trim c ≠ [])
    (hwrap : includes c "<template".toList = false)
    (hscope : includes c "scope.row".toList = true ∨ includes c "scope.$index".toList = true) :
    (columnIssues content clean tag).filter (fun i => i.message = scopeMessage) =
        [⟨lineNumOf content tag, "error", scopeMessage,
          "将自定义内容包装在<template #default=\"scope\">...</template>中"⟩] ∧
      (columnIssues content clean tag).filter (fun i => i.message = customMessage) = [] ∧
      (matchTags "el-table-column".toList 0 clean).count tag = 1 ∧
      List.Sublist (columnIssues content clean tag) (checkTableIssues content) := by
  have hafter : afterTagOf clean tag = c ++ "</el-table-column>".toList ++ post :=
    @afterTagOf_of_first clean pre tag _ (by rw [hsplit]; simp)
      (fun a b h => by rw [honce a b h])
  have hs : (includes c "scope.row".toList || includes c "scope.$index".toList) = true := by
    rcases hscope with h | h <;> rw [h] <;> simp
  have hcontent : contentIssues (lineNumOf content tag)
      (contentBetweenOf (afterTagOf clean tag)) = [scopeIssue (lineNumOf content tag)] := by
    rw [hafter, contentBetweenOf_of_close hclose]
    unfold contentIssues
    rw [if_pos htrim, hwrap, if_pos (by rfl), if_pos hs]
  have hcol : columnIssues content clean tag =
      scopeIssue (lineNumOf content tag) ::
        closingIssues (lineNumOf content tag) (afterTagOf clean tag) := by
    unfold columnIssues
    simp only [hopen, hcontent]
    rfl
  refine ⟨?_, ?_, ?_, ?_⟩
  · rw [hcol]
    exact (filter_scope_closing _ _ (closingIssues_cases _ _)).1
  · rw [hcol]
    exact (filter_scope_closing _ _ (closingIssues_cases _ _)).2
  · apply Nat.le_antisymm
    · apply matchTags_count_le_one
      intro a b a2 b2 h1 h2
      rw [honce a b h1, honce a2 b2 h2]
    · exact List.count_pos_iff.2 hmatch
  · subst hclean
    rw [checkTableIssues_eq (template_ne_nil_of_match hmatch), List.append_assoc]
    apply List.Sublist.trans _ (List.sublist_append_left _ _)
    exact List.sublist_flatten_of_mem (List.mem_map_of_mem _ hmatch)

/-- Scenario 3 of the specification: the scope reference sits inside a nested
`<span>`. -/
theorem scope_without_wrapper_error_witness :
    (columnIssues
        "<template><el-table-column><span>\x7b\x7b scope.row.name \x7d\x7d</span></el-table-column></template>".toList
        "<el-table-column><span>\x7b\x7b scope.row.name \x7d\x7d</span></el-table-column>".toList
        "<el-table-column>".toList).filter (fun i => i.message = scopeMessage) =
        [⟨1, "error", scopeMessage,
          "将自定义内容包装在<template #default=\"scope\">...</template>中"⟩] ∧
      (columnIssues
        "<template><el-table-column><span>\x7b\x7b scope.row.name \x7d\x7d</span></el-table-column></template>".toList
        "<el-table-column><span>\x7b\x7b scope.row.name \x7d\x7d</span></el-table-column>".toList
        "<el-table-column>".toList).filter (fun i => i.message = customMessage) = [] ∧
      (matchTags "el-table-column".toList 0
        "<el-table-column><span>\x7b\x7b scope.row.name \x7d\x7d</span></el-table-column>".toList).count
          "<el-table-column>".toList = 1 ∧
      List.Sublist
        (columnIssues
          "<template><el-table-column><span>\x7b\x7b scope.row.name \x7d\x7d</span></el-table-column></template>".toList
          "<el-table-column><span>\x7b\x7b scope.row.name \x7d\x7d</span></el-table-column>".toList
          "<el-table-column>".toList)
        (checkTableIssues
          "<template><el-table-column><span>\x7b\x7b scope.row.name \x7d\x7d</span></el-table-column></template>".toList) :=
  scope_without_wrapper_error
    "<template><el-table-column><span>\x7b\x7b scope.row.name \x7d\x7d</span></el-table-column></template>".toList
    "<el-table-column><span>\x7b\x7b scope.row.name \x7d\x7d</span></el-table-column>".toList
    [] "<el-table-column>".toList "<span>\x7b\x7b scope.row.name \x7d\x7d</span>".toList []
    (by decide) (by decide) (by decide) (by decide)
    (fun a b h => unique_of_find?_eq_findLast? (k := 0) (by decide) (by decide) a b h)
    (fun a b h => find?_some_le (k := 33) (by decide) a b h)
    (by decide) (by decide) (Or.inl (by decide))

/-- When no closing tag follows, the closing-tag check pushes its error. -/
theorem closingIssues_of_no_close {ln : Nat} {afterTag : Str}
    (hno : ∀ a b, afterTag ≠ a ++ "</el-table-column>".toList ++ b) :
    closingIssues ln afterTag = [missingCloseIssue ln] := by
  have hf : find? "</el-table-column>".toList afterTag = none := by
    cases h : find? "</el-table-column>".toList afterTag with
    | none => rfl
    | some k =>
      obtain ⟨a, b, hs, _, _⟩ := find?_some_split h
      exact absurd hs (hno a b)
  unfold closingIssues
  simp only
  rw [indexOf_of_none hf, if_pos (Or.inl rfl)]

/-- When the first closing tag comes before any further opening, the
closing-tag check pushes nothing. -/
theorem closingIssues_of_close {ln : Nat} {c post : Str}
    (hclose : ∀ a b, c ++ "</el-table-column>".toList ++ post =
      a ++ "</el-table-column>".toList ++ b → c.length ≤ a.length)
    (hnext : ∀ a b, c ++ "</el-table-column>".toList ++ post =
      a ++ "<el-table-column".toList ++ b → c.length ≤ a.length) :
    closingIssues ln (c ++ "</el-table-column>".toList ++ post) = [] := by
  have hf := find?_of_first hclose
  unfold closingIssues
  simp only
  rw [indexOf_of_find? hf, if_neg]
  rintro (h | ⟨hpos, h⟩)
  · omega
  · cases hn : find? "<el-table-column".toList (c ++ "</el-table-column>".toList ++ post) with
    | none => rw [indexOf_of_none hn] at hpos; omega
    | some k =>
      rw [indexOf_of_find? hn] at h
      obtain ⟨a, b, hs, hlen, _⟩ := find?_some_split hn
      have := hnext a b hs
      omega

/-- A properly closed tag pushes no missing-closing-tag error. -/
theorem columnIssues_of_properlyClosed {content clean m : Str} (h : ProperlyClosed clean m) :
    ∀ i ∈ columnIssues content clean m, i.message ≠ missingCloseMessage := by
  intro i hi
  unfold columnIssues at hi
  simp only at hi
  rcases h with h | ⟨pre, c, post, hs, hfirst, hclose, hnext⟩
  · rw [h] at hi
    simp at hi
  · split at hi
    · have hafter : afterTagOf clean m = c ++ "</el-table-column>".toList ++ post :=
        @afterTagOf_of_first clean pre m _ (by rw [hs]; simp) hfirst
      rw [hafter, closingIssues_of_close hclose hnext, List.append_nil] at hi
      rcases contentIssues_cases (lineNumOf content m)
        (contentBetweenOf (c ++ "</el-table-column>".toList ++ post)) with h2 | h2 | h2
      · rw [h2] at hi; simp at hi
      · rw [h2, List.mem_singleton] at hi
        rw [hi]
        exact scopeMessage_ne_missingClose
      · rw [h2, List.mem_singleton] at hi
        rw [hi]
        exact customMessage_ne_missingClose
    · simp at hi

/-- The region `<el-table-column></el-table-column><el-table-column>`: the
second opening is never closed and nothing follows it, yet no
missing-closing-tag error is reported, because the text after the tag is taken
from the first occurrence of the tag text. -/
theorem missing_close_duplicate_counterexample :
    removeComments (extractTemplate
        "<template><el-table-column></el-table-column><el-table-column></template>".toList) =
      "<el-table-column></el-table-column>".toList ++ "<el-table-column>".toList ++ [] ∧
    matchTags "el-table-column".toList 0
        ("<el-table-column></el-table-column>".toList ++ "<el-table-column>".toList ++ []) =
      ["<el-table-column>".toList, "<el-table-column>".toList] ∧
    endsWith "<el-table-column>".toList "/>".toList = false ∧
    columnIssues
        "<template><el-table-column></el-table-column><el-table-column></template>".toList
        ("<el-table-column></el-table-column>".toList ++ "<el-table-column>".toList ++ [])
        "<el-table-column>".toList = [] ∧
    checkTableIssues
        "<template><el-table-column></el-table-column><el-table-column></template>".toList = [] := by
  decide

/-- C2 (amended): a non-self-closing `<el-table-column ...>` match whose text
does not occur earlier in the comment-stripped region, and after which neither
`</el-table-column>` nor `<el-table-column` occurs, pushes exactly one issue,
the missing-closing-tag error, of type `error`. Its line is the one the code
computes, `lineNumOf content tag`, from the first occurrence of the tag text
in the file content, which need not be the line the match stands on. When
moreover it is the last match and every other match is properly closed, the
list returned by `checkTableIssues` holds exactly one missing-closing-tag
error. -/
theorem missing_close_unclosed_last (content clean pre tag rest : Str)
    (hclean : removeComments (extractTemplate content) = clean)
    (hsplit : clean = pre ++ tag ++ rest)
    (hmatch : tag ∈ matchTags "el-table-column".toList 0 clean)
    (hfirst : ∀ a b, clean = a ++ tag ++ b → pre.length ≤ a.length)
    (hopen : endsWith tag "/>".toList = false)
    (hnoclose : ∀ a b, rest ≠ a ++ "</el-table-column>".toList ++ b)
    (hnoopen : ∀ a b, rest ≠ a ++ "<el-table-column".toList ++ b) :
    columnIssues content clean tag =
        [⟨lineNumOf content tag, "error", missingCloseMessage,
          "在适当位置添加</el-table-column>"⟩] ∧
      ∀ ms, matchTags "el-table-column".toList 0 clean = ms ++ [tag] →
        (∀ m ∈ ms, ProperlyClosed clean m) →
        (checkTableIssues content).filter (fun i => i.message = missingCloseMessage) =
          [⟨lineNumOf content tag, "error", missingCloseMessage,
            "在适当位置添加</el-table-column>"⟩] := by
  have hafter : afterTagOf clean tag = rest := afterTagOf_of_first hsplit hfirst
  have hnc : find? "</el-table-column>".toList rest = none := by
    cases h : find? "</el-table-column>".toList rest with
    | none => rfl
    | some k =>
      obtain ⟨a, b, hs, _, _⟩ := find?_some_split h
      exact absurd hs (hnoclose a b)
  have hno : find? "<el-table-column".toList rest = none := by
    cases h : find? "<el-table-column".toList rest with
    | none => rfl
    | some k =>
      obtain ⟨a, b, hs, _, _⟩ := find?_some_split h
      exact absurd hs (hnoopen a b)
  have hcol : columnIssues content clean tag = [missingCloseIssue (lineNumOf content tag)] := by
    unfold columnIssues
    simp only [hopen, hafter]
    rw [contentBetweenOf_of_no_close hnc, hno, closingIssues_of_no_close hnoclose]
    simp [contentIssues, trim]
  refine ⟨hcol, ?_⟩
  intro ms hms hclosed
  subst hclean
  rw [checkTableIssues_eq (template_ne_nil_of_match hmatch), hms, List.flatMap_append,
    List.filter_append, List.filter_append, List.filter_append]
  have h1 : (ms.flatMap (columnIssues content (removeComments (extractTemplate content)))).filter
      (fun i => i.message = missingCloseMessage) = [] := by
    rw [List.filter_eq_nil_iff]
    intro i hi
    obtain ⟨m, hm, hi⟩ := List.mem_flatMap.1 hi
    simpa using columnIssues_of_properlyClosed (hclosed m hm) i hi
  have h2 : (slotScopeIssues content (removeComments (extractTemplate content))).filter
      (fun i => i.message = missingCloseMessage) = [] := by
    rw [List.filter_eq_nil_iff]
    intro i hi
    rw [mem_slotScopeIssues hi]
    simpa using missingCloseMessage_ne_slotScope.symm
  have h3 : (allComponentIssues content (removeComments (extractTemplate content))).filter
      (fun i => i.message = missingCloseMessage) = [] := by
    rw [List.filter_eq_nil_iff]
    intro i hi
    obtain ⟨comp, hcomp, m, _, hi⟩ := mem_allComponentIssues hi
    rw [hi]
    simpa [componentIssue] using componentMessage_ne_missingClose hcomp
  rw [h1, h2, h3]
  simp only [List.flatMap_cons, List.flatMap_nil, List.append_nil, List.nil_append, hcol]
  simp [missingCloseIssue]

/-- Two target tags on lines 2 and 3, the first closed and the second not. -/
theorem missing_close_unclosed_last_witness :
    columnIssues
        "<template>\n<el-table-column a></el-table-column>\n<el-table-column b>\n</template>".toList
        "\n<el-table-column a></el-table-column>\n<el-table-column b>\n".toList
        "<el-table-column b>".toList =
      [⟨3, "error", missingCloseMessage, "在适当位置添加</el-table-column>"⟩] ∧
    (checkTableIssues
        "<template>\n<el-table-column a></el-table-column>\n<el-table-column b>\n</template>".toList).filter
        (fun i => i.message = missingCloseMessage) =
      [⟨3, "error", missingCloseMessage, "在适当位置添加</el-table-column>"⟩] :=
  have h := missing_close_unclosed_last
    "<template>\n<el-table-column a></el-table-column>\n<el-table-column b>\n</template>".toList
    "\n<el-table-column a></el-table-column>\n<el-table-column b>\n".toList
    "\n<el-table-column a></el-table-column>\n".toList "<el-table-column b>".toList "\n".toList
    (by decide) (by decide) (by decide)
    (fun a b h => find?_some_le (k := 39) (by decide) a b h)
    (by decide)
    (find?_none_split (by decide))
    (find?_none_split (by decide))
  ⟨h.1, h.2 ["<el-table-column a>".toList] (by decide) (by
    intro m hm
    rw [List.mem_singleton.1 hm]
    exact Or.inr ⟨"\n".toList, [], "\n<el-table-column b>\n".toList, by decide,
      fun a b h => find?_some_le (k := 1) (by decide) a b h,
      fun _ _ _ => Nat.zero_le _, fun _ _ _ => Nat.zero_le _⟩)⟩

/-- The line number of a text that occurs in the file: one more than the
number of newlines before its first occurrence. -/
theorem lineNumOf_of_first {content p tag q : Str} (hs : content = p ++ tag ++ q)
    (hmin : ∀ p2 q2, content = p2 ++ tag ++ q2 → p.length ≤ p2.length) :
    lineNumOf content tag = 1 + p.count '\n' := by
  subst hs
  unfold lineNumOf
  rw [indexOf_of_find? (find?_of_first hmin), substring_zero_nat, split_length,
    List.append_assoc, List.take_left, Nat.add_comm]

/-- When an opening starts before every closing tag, the closing-tag check
pushes its error. -/
theorem closingIssues_of_open_first {ln : Nat} {rest a b : Str}
    (hs : rest = a ++ "<el-table-column".toList ++ b)
    (hlt : ∀ a2 b2, rest = a2 ++ "</el-table-column>".toList ++ b2 → a.length < a2.length) :
    closingIssues ln rest = [missingCloseIssue ln] := by
  unfold closingIssues
  simp only
  rw [if_pos]
  cases hc : find? "</el-table-column>".toList rest with
  | none => exact Or.inl (indexOf_of_none hc)
  | some j =>
    right
    obtain ⟨a2, b2, hs2, hlen2, _⟩ := find?_some_split hc
    have h2 := hlt a2 b2 hs2
    cases hn : find? "<el-table-column".toList rest with
    | none => exact absurd hs (find?_none_split hn a b)
    | some k =>
      have h1 := find?_some_le hn a b hs
      rw [indexOf_of_find? hn, indexOf_of_find? hc]
      omega

/-- C3: when the first `<el-table-column ...>` match of the comment-stripped
region is not self-closing and, in the text after it, either no
`</el-table-column>` occurs or an `<el-table-column` starts before every
`</el-table-column>`, the list returned by `checkTableIssues` contains the
missing-closing-tag error at the line of that first tag; that line is one more
than the number of newlines before the first occurrence of the tag text in the
file content. -/
theorem missing_close_first_tag (content clean pre tag rest : Str) (ms : List Str)
    (hclean : removeComments (extractTemplate content) = clean)
    (hms : matchTags "el-table-column".toList 0 clean = tag :: ms)
    (hsplit : clean = pre ++ tag ++ rest)
    (hfirst : ∀ a b, clean = a ++ tag ++ b → pre.length ≤ a.length)
    (hopen : endsWith tag "/>".toList = false)
    (hcond : (∀ a b, rest ≠ a ++ "</el-table-column>".toList ++ b) ∨
      ∃ a b, rest = a ++ "<el-table-column".toList ++ b ∧
        ∀ a2 b2, rest = a2 ++ "</el-table-column>".toList ++ b2 → a.length < a2.length) :
    (⟨lineNumOf content tag, "error", missingCloseMessage,
        "在适当位置添加</el-table-column>"⟩ : Issue) ∈ checkTableIssues content ∧
      ∀ p q, content = p ++ tag ++ q →
        (∀ p2 q2, content = p2 ++ tag ++ q2 → p.length ≤ p2.length) →
        lineNumOf content tag = 1 + p.count '\n' := by
  have hmatch : tag ∈ matchTags "el-table-column".toList 0 clean := by
    rw [hms]; exact List.mem_cons_self _ _
  have hafter : afterTagOf clean tag = rest := afterTagOf_of_first hsplit hfirst
  have hclosing : closingIssues (lineNumOf content tag) rest =
      [missingCloseIssue (lineNumOf content tag)] := by
    rcases hcond with h | ⟨a, b, hs, hlt⟩
    · exact closingIssues_of_no_close h
    · exact closingIssues_of_open_first hs hlt
  refine ⟨?_, fun p q hs hmin => lineNumOf_of_first hs hmin⟩
  subst hclean
  rw [checkTableIssues_eq (template_ne_nil_of_match hmatch)]
  apply List.mem_append_left
  apply List.mem_append_left
  rw [List.mem_flatMap]
  refine ⟨tag, hmatch, ?_⟩
  unfold columnIssues
  simp only [hopen, hafter, hclosing]
  simp [missingCloseIssue]

/-- Scenario 6 of the specification: a target tag on line 2 is followed by
another opening before any closing tag. -/
theorem missing_close_first_tag_witness :
    (⟨2, "error", missingCloseMessage, "在适当位置添加</el-table-column>"⟩ : Issue) ∈
      checkTableIssues
        "<template>\n<el-table-column a>\n<el-table-column b></el-table-column>\n</template>".toList ∧
    lineNumOf
        "<template>\n<el-table-column a>\n<el-table-column b></el-table-column>\n</template>".toList
        "<el-table-column a>".toList = 1 + "<template>\n".toList.count '\n' :=
  have h := missing_close_first_tag
    "<template>\n<el-table-column a>\n<el-table-column b></el-table-column>\n</template>".toList
    "\n<el-table-column a>\n<el-table-column b></el-table-column>\n".toList
    "\n".toList "<el-table-column a>".toList
    "\n<el-table-column b></el-table-column>\n".toList ["<el-table-column b>".toList]
    (by decide) (by decide) (by decide)
    (fun a b h => find?_some_le (k := 1) (by decide) a b h)
    (by decide)
    (Or.inr ⟨"\n".toList, " b></el-table-column>\n".toList, by decide,
      fun a2 b2 h => Nat.lt_of_lt_of_le (by decide)
        (find?_some_le (k := 20) (by decide) a2 b2 h)⟩)
  ⟨h.1, h.2 "<template>\n".toList
    "\n<el-table-column b></el-table-column>\n</template>".toList (by decide)
    (fun p2 q2 h2 => find?_some_le (k := 11) (by decide) p2 q2 h2)⟩

/-! ## Files without a template region, self-closing tags -/

/-- A text in which `</template>` does not occur has no template region. -/
theorem no_region_of_no_close {content : Str}
    (h : ∀ a b, content ≠ a ++ "</template>".toList ++ b) :
    ∀ a b c, content ≠ a ++ "<template>".toList ++ b ++ "</template>".toList ++ c :=
  fun a b c hc => h (a ++ "<template>".toList ++ b) c hc

/-- C4: when the file content has no `<template>` followed later by
`</template>`, `extractTemplate` returns the empty string and
`checkTableIssues` returns the empty list, whatever else the file contains. -/
theorem no_template_region_no_issues (content : Str)
    (hno : ∀ a b c, content ≠ a ++ "<template>".toList ++ b ++ "</template>".toList ++ c) :
    extractTemplate content = [] ∧ checkTableIssues content = [] := by
  have h : extractTemplate content = [] := by
    unfold extractTemplate
    cases h1 : find? "<template>".toList content with
    | none => rfl
    | some i =>
      obtain ⟨a, r, hs, hlen, _⟩ := find?_some_split h1
      have hd : content.drop (i + "<template>".toList.length) = r := by
        rw [hs, ← hlen, ← List.length_append, List.drop_left]
      simp only [hd]
      cases h2 : find? "</template>".toList r with
      | none => rfl
      | some j =>
        obtain ⟨b, c, hr, _, _⟩ := find?_some_split h2
        exact absurd (by rw [hs, hr]; simp) (hno a b c)
  refine ⟨h, ?_⟩
  unfold checkTableIssues
  simp only [h, if_true]

/-- A file with target tags, scope references, `slot-scope=` and an
interactive component, whose `<template>` is never closed. -/
theorem no_template_region_no_issues_witness :
    extractTemplate
        "<template><el-table-column><el-button slot-scope=\"scope.row\">".toList = [] ∧
      checkTableIssues
        "<template><el-table-column><el-button slot-scope=\"scope.row\">".toList = [] :=
  no_template_region_no_issues
    "<template><el-table-column><el-button slot-scope=\"scope.row\">".toList
    (no_region_of_no_close (find?_none_split (by decide)))

/-- C5: a matched tag text that ends with `/>` pushes no issue in the per-tag
checks; and when every `<el-table-column ...>` match of the region is
self-closing, the returned list holds no missing-closing-tag error, no
scope-without-wrapper error and no custom-content warning. -/
theorem self_closing_no_structural_issue (content : Str) :
    (∀ clean tag, endsWith tag "/>".toList = true → columnIssues content clean tag = []) ∧
      ((∀ tag ∈ matchTags "el-table-column".toList 0 (removeComments (extractTemplate content)),
          endsWith tag "/>".toList = true) →
        ∀ i ∈ checkTableIssues content,
          i.message ≠ missingCloseMessage ∧ i.message ≠ scopeMessage ∧
            i.message ≠ customMessage) := by
  have hself : ∀ clean tag, endsWith tag "/>".toList = true →
      columnIssues content clean tag = [] := by
    intro clean tag h
    unfold columnIssues
    simp only [h]
    rfl
  refine ⟨hself, ?_⟩
  intro hall i hi
  unfold checkTableIssues at hi
  simp only at hi
  split at hi
  · simp at hi
  · rcases List.mem_append.1 hi with h1 | h1
    · rcases List.mem_append.1 h1 with h2 | h2
      · obtain ⟨m, hm, h3⟩ := List.mem_flatMap.1 h2
        rw [hself _ m (hall m hm)] at h3
        simp at h3
      · rw [mem_slotScopeIssues h2]
        exact ⟨missingCloseMessage_ne_slotScope.symm, scopeMessage_ne_slotScope.symm,
          customMessage_ne_slotScope.symm⟩
    · obtain ⟨comp, hcomp, m, _, h3⟩ := mem_allComponentIssues h1
      rw [h3]
      exact ⟨componentMessage_ne_missingClose hcomp, componentMessage_ne_scope hcomp,
        componentMessage_ne_custom hcomp⟩

/-- Two self-closing target tags, the second followed by a scope reference in
an interactive component: only the component error is reported. -/
theorem self_closing_no_structural_issue_witness :
    columnIssues
        "<template><el-table-column prop=\"a\"/><el-table-column /><el-tag :t=\"scope.row\"></template>".toList
        "<el-table-column prop=\"a\"/><el-table-column /><el-tag :t=\"scope.row\">".toList
        "<el-table-column />".toList = [] ∧
      ∀ i ∈ checkTableIssues
          "<template><el-table-column prop=\"a\"/><el-table-column /><el-tag :t=\"scope.row\"></template>".toList,
        i.message ≠ missingCloseMessage ∧ i.message ≠ scopeMessage ∧
          i.message ≠ customMessage :=
  have h := self_closing_no_structural_issue
    "<template><el-table-column prop=\"a\"/><el-table-column /><el-tag :t=\"scope.row\"></template>".toList
  ⟨h.1 _ "<el-table-column />".toList (by decide), h.2 (by decide)⟩

/-! ## Columns without content, legacy slot syntax -/

/-- A character that starts inside the first part of a text belongs to it. -/
theorem mem_of_append_eq {c r a b : Str} {x : Char} (h : c ++ r = a ++ x :: b)
    (hlt : a.length < c.length) : x ∈ c := by
  have h1 : (c ++ r)[a.length]? = (a ++ x :: b)[a.length]? := by rw [h]
  rw [List.getElem?_append_left hlt, List.getElem?_append_right (Nat.le_refl _)] at h1
  simp only [Nat.sub_self, List.getElem?_cons_zero] at h1
  exact List.getElem?_mem h1

/-- No tag starts inside white space. -/
theorem length_le_of_whitespace {c r a b : Str}
    (hws : ∀ x ∈ c, isWhiteSpace x = true) (h : c ++ r = a ++ '<' :: b) :
    c.length ≤ a.length := by
  by_contra hlt
  have hmem : '<' ∈ c := mem_of_append_eq h (Nat.lt_of_not_le hlt)
  have := hws _ hmem
  revert this
  decide

/-- An empty column pushes nothing in the per-tag checks. -/
theorem columnIssues_of_emptyColumn {content clean m : Str} (h : EmptyColumn clean m) :
    columnIssues content clean m = [] := by
  obtain ⟨pre, c, post, hs, honce, hws⟩ := h
  have hafter : afterTagOf clean m = c ++ "</el-table-column>".toList ++ post :=
    @afterTagOf_of_first clean pre m _ (by rw [hs]; simp) (fun a b h => by rw [honce a b h])
  have hclose : ∀ a b, c ++ "</el-table-column>".toList ++ post =
      a ++ "</el-table-column>".toList ++ b → c.length ≤ a.length := by
    intro a b hab
    have h2 : c ++ ("</el-table-column>".toList ++ post) =
        a ++ '<' :: ("/el-table-column>".toList ++ b) := by simpa using hab
    exact length_le_of_whitespace hws h2
  have hnext : ∀ a b, c ++ "</el-table-column>".toList ++ post =
      a ++ "<el-table-column".toList ++ b → c.length ≤ a.length := by
    intro a b hab
    have h2 : c ++ ("</el-table-column>".toList ++ post) =
        a ++ '<' :: ("el-table-column".toList ++ b) := by simpa using hab
    exact length_le_of_whitespace hws h2
  unfold columnIssues
  simp only
  split
  · rw [hafter, contentBetweenOf_of_close hclose, closingIssues_of_close hclose hnext]
    simp [contentIssues, trim_eq_nil_of_all hws]
  · rfl

/-- C6: when a target tag text occurs once in the comment-stripped region and
only white space (possibly nothing) stands between it and
`</el-table-column>`, the per-tag checks push no issue for it; and when every
match of the region is such a tag, the region has no `slot-scope=` and no
interactive component tag, `checkTableIssues` returns the empty list. -/
theorem empty_column_no_issues (content clean : Str)
    (hclean : removeComments (extractTemplate content) = clean) :
    (∀ tag, EmptyColumn clean tag → columnIssues content clean tag = []) ∧
      ((∀ tag ∈ matchTags "el-table-column".toList 0 clean, EmptyColumn clean tag) →
        (∀ a b, clean ≠ a ++ "slot-scope=".toList ++ b) →
        (∀ comp ∈ componentsNeedScope, matchTags comp.toList 0 clean = []) →
        checkTableIssues content = []) := by
  refine ⟨fun tag h => columnIssues_of_emptyColumn h, ?_⟩
  intro hall hslot hcomp
  subst hclean
  unfold checkTableIssues
  simp only
  split
  · rfl
  · have h1 : (matchTags "el-table-column".toList 0
        (removeComments (extractTemplate content))).flatMap
          (columnIssues content (removeComments (extractTemplate content))) = [] := by
      rw [List.flatMap_eq_nil_iff]
      intro m hm
      exact columnIssues_of_emptyColumn (hall m hm)
    have h2 : slotScopeIssues content (removeComments (extractTemplate content)) = [] := by
      unfold slotScopeIssues
      rw [if_neg]
      intro hinc
      obtain ⟨a, b, hab⟩ := includes_iff.1 hinc
      exact hslot a b hab
    have h3 : allComponentIssues content (removeComments (extractTemplate content)) = [] := by
      unfold allComponentIssues
      rw [List.flatMap_eq_nil_iff]
      intro comp hc
      rw [hcomp comp hc]
      rfl
    rw [h1, h2, h3]
    rfl

/-- Scenario 1 of the specification, with a line break inside the column. -/
theorem empty_column_no_issues_witness :
    columnIssues
        "<template><el-table-column label=\"Name\" prop=\"name\"> \n</el-table-column></template>".toList
        "<el-table-column label=\"Name\" prop=\"name\"> \n</el-table-column>".toList
        "<el-table-column label=\"Name\" prop=\"name\">".toList = [] ∧
      checkTableIssues
        "<template><el-table-column label=\"Name\" prop=\"name\"> \n</el-table-column></template>".toList
        = [] :=
  have hempty : EmptyColumn
      "<el-table-column label=\"Name\" prop=\"name\"> \n</el-table-column>".toList
      "<el-table-column label=\"Name\" prop=\"name\">".toList :=
    ⟨[], " \n".toList, [], by decide,
      fun a b h => unique_of_find?_eq_findLast? (k := 0) (by decide) (by decide) a b h,
      by decide⟩
  have h := empty_column_no_issues
    "<template><el-table-column label=\"Name\" prop=\"name\"> \n</el-table-column></template>".toList
    "<el-table-column label=\"Name\" prop=\"name\"> \n</el-table-column>".toList (by decide)
  ⟨h.1 _ hempty,
    h.2 (by
        intro tag htag
        have : tag = "<el-table-column label=\"Name\" prop=\"name\">".toList := by
          revert tag
          decide
        rw [this]
        exact hempty)
      (find?_none_split (by decide)) (by decide)⟩

/-- No per-tag issue carries the legacy slot message. -/
theorem filter_slotScope_columns (content clean : Str) (ms : List Str) :
    (ms.flatMap (columnIssues content clean)).filter
      (fun i => i.message = slotScopeMessage) = [] := by
  rw [List.filter_eq_nil_iff]
  intro i hi
  obtain ⟨m, _, hi⟩ := List.mem_flatMap.1 hi
  rcases mem_columnIssues hi with h | h | h <;> rw [h]
  · simpa [scopeIssue] using scopeMessage_ne_slotScope
  · simpa [customIssue] using customMessage_ne_slotScope
  · simpa [missingCloseIssue] using missingCloseMessage_ne_slotScope

/-- No interactive component issue carries the legacy slot message. -/
theorem filter_slotScope_components (content clean : Str) :
    (allComponentIssues content clean).filter
      (fun i => i.message = slotScopeMessage) = [] := by
  rw [List.filter_eq_nil_iff]
  intro i hi
  obtain ⟨comp, hcomp, m, _, hi⟩ := mem_allComponentIssues hi
  rw [hi]
  simpa [componentIssue] using componentMessage_ne_slotScope hcomp

/-- C7: the list returned by `checkTableIssues` holds exactly one issue with
the legacy slot message, a warning, when `slot-scope=` occurs in the
comment-stripped region, however often, and none when it does not occur. -/
theorem legacy_slot_warning_once (content : Str) :
    ((∃ a b, removeComments (extractTemplate content) = a ++ "slot-scope=".toList ++ b) →
        (checkTableIssues content).filter (fun i => i.message = slotScopeMessage) =
          [⟨(split '\n' (splitHead content "slot-scope=".toList)).length, "warning",
            slotScopeMessage,
            "在Vue 3中应该使用 #default=\"scope\" 或 v-slot:default=\"scope\""⟩]) ∧
      ((∀ a b, removeComments (extractTemplate content) ≠ a ++ "slot-scope=".toList ++ b) →
        (checkTableIssues content).filter (fun i => i.message = slotScopeMessage) = []) := by
  constructor
  · intro hex
    have hinc : includes (removeComments (extractTemplate content)) "slot-scope=".toList = true :=
      includes_iff.2 hex
    have hne : extractTemplate content ≠ [] := by
      intro h0
      rw [h0, removeComments_nil] at hinc
      revert hinc
      decide
    rw [checkTableIssues_eq hne, List.filter_append, List.filter_append,
      filter_slotScope_columns, filter_slotScope_components]
    unfold slotScopeIssues
    rw [if_pos hinc]
    simp [slotScopeIssue]
  · intro hno
    by_cases hne : extractTemplate content = []
    · unfold checkTableIssues
      simp only [hne, if_true]
      rfl
    · rw [checkTableIssues_eq hne, List.filter_append, List.filter_append,
        filter_slotScope_columns, filter_slotScope_components]
      unfold slotScopeIssues
      rw [if_neg]
      · rfl
      · intro hinc
        obtain ⟨a, b, hab⟩ := includes_iff.1 hinc
        exact hno a b hab

/-- Scenario 4 of the specification: `slot-scope=` on lines 2 and 3 gives one
warning, at line 2. -/
theorem legacy_slot_warning_once_witness :
    (checkTableIssues
        "<template>\n<a slot-scope=\"scope\"></a>\n<b slot-scope=\"scope\"></b>\n</template>".toList).filter
        (fun i => i.message = slotScopeMessage) =
      [⟨2, "warning", slotScopeMessage,
        "在Vue 3中应该使用 #default=\"scope\" 或 v-slot:default=\"scope\""⟩] :=
  (legacy_slot_warning_once
    "<template>\n<a slot-scope=\"scope\"></a>\n<b slot-scope=\"scope\"></b>\n</template>".toList).1
    (includes_iff.1 (by decide))

/-! ## The boundary content of the custom-content check -/

/-- The region `<el-table-column a><el-table-column b>{{ scope.row.x }}</el-table-column>`:
for the first tag the next opening comes first (index 0, the closing tag is at
index 36), so the text between the tag and whichever comes first is empty; the
content the check examines runs up to the closing tag instead, and the scope
reference after the second opening gives the first tag a scope-without-wrapper
error. -/
theorem boundary_whichever_first_counterexample :
    afterTagOf "<el-table-column a><el-table-column b>\x7b\x7b scope.row.x \x7d\x7d</el-table-column>".toList
        "<el-table-column a>".toList =
      "<el-table-column b>\x7b\x7b scope.row.x \x7d\x7d</el-table-column>".toList ∧
    indexOf "<el-table-column b>\x7b\x7b scope.row.x \x7d\x7d</el-table-column>".toList
        "<el-table-column".toList = 0 ∧
    indexOf "<el-table-column b>\x7b\x7b scope.row.x \x7d\x7d</el-table-column>".toList
        "</el-table-column>".toList = 36 ∧
    contentBetweenOf "<el-table-column b>\x7b\x7b scope.row.x \x7d\x7d</el-table-column>".toList =
      "<el-table-column b>\x7b\x7b scope.row.x \x7d\x7d".toList ∧
    contentBetweenOf "<el-table-column b>\x7b\x7b scope.row.x \x7d\x7d</el-table-column>".toList ≠
      substring "<el-table-column b>\x7b\x7b scope.row.x \x7d\x7d</el-table-column>".toList 0 0 ∧
    columnIssues
        "<template><el-table-column a><el-table-column b>\x7b\x7b scope.row.x \x7d\x7d</el-table-column></template>".toList
        "<el-table-column a><el-table-column b>\x7b\x7b scope.row.x \x7d\x7d</el-table-column>".toList
        "<el-table-column a>".toList =
      [scopeIssue 1, missingCloseIssue 1] := by
  decide

/-- C8 (amended): for a non-self-closing matched tag text, with `rest` the
region text after its first occurrence, the content examined by the
custom-content check is the text of `rest` before the first
`</el-table-column>` whenever one occurs in `rest`, also when an
`<el-table-column` starts before it; it is the text before the first
`<el-table-column` only when no `</el-table-column>` occurs, and empty when
neither occurs. The issues pushed for the tag are those of the custom-content
check on that content, followed by those of the closing-tag check. -/
theorem boundary_content (content clean pre tag rest : Str)
    (hsplit : clean = pre ++ tag ++ rest)
    (hfirst : ∀ a b, clean = a ++ tag ++ b → pre.length ≤ a.length)
    (hopen : endsWith tag "/>".toList = false) :
    (∀ c post, rest = c ++ "</el-table-column>".toList ++ post →
        (∀ a b, rest = a ++ "</el-table-column>".toList ++ b → c.length ≤ a.length) →
        contentBetweenOf (afterTagOf clean tag) = c) ∧
      ((∀ a b, rest ≠ a ++ "</el-table-column>".toList ++ b) →
        ∀ c r, rest = c ++ "<el-table-column".toList ++ r →
          (∀ a b, rest = a ++ "<el-table-column".toList ++ b → c.length ≤ a.length) →
          contentBetweenOf (afterTagOf clean tag) = c) ∧
      ((∀ a b, rest ≠ a ++ "</el-table-column>".toList ++ b) →
        (∀ a b, rest ≠ a ++ "<el-table-column".toList ++ b) →
        contentBetweenOf (afterTagOf clean tag) = []) ∧
      columnIssues content clean tag =
        contentIssues (lineNumOf content tag) (contentBetweenOf (afterTagOf clean tag)) ++
          closingIssues (lineNumOf content tag) rest := by
  have hafter : afterTagOf clean tag = rest := afterTagOf_of_first hsplit hfirst
  have hnone : ∀ pat : Str, (∀ a b, rest ≠ a ++ pat ++ b) → find? pat rest = none := by
    intro pat hno
    cases h : find? pat rest with
    | none => rfl
    | some k =>
      obtain ⟨a, b, hs, _, _⟩ := find?_some_split h
      exact absurd hs (hno a b)
  rw [hafter]
  refine ⟨?_, ?_, ?_, ?_⟩
  · intro c post hs hmin
    subst hs
    exact contentBetweenOf_of_close hmin
  · intro hno c r hs hmin
    rw [contentBetweenOf_of_no_close (hnone _ hno)]
    subst hs
    rw [find?_of_first hmin]
    simp
  · intro hno hno2
    rw [contentBetweenOf_of_no_close (hnone _ hno), hnone _ hno2]
  · unfold columnIssues
    simp only [hopen, hafter]
    rfl

/-- A scope reference after the next opening counts when a closing tag
follows, and does not when none follows. -/
theorem boundary_content_witness :
    contentBetweenOf (afterTagOf
        "<el-table-column a><el-table-column b>\x7b\x7b scope.row.x \x7d\x7d</el-table-column>".toList
        "<el-table-column a>".toList) =
      "<el-table-column b>\x7b\x7b scope.row.x \x7d\x7d".toList ∧
    contentBetweenOf (afterTagOf
        "<el-table-column a> x <el-table-column b>\x7b\x7b scope.row.x \x7d\x7d".toList
        "<el-table-column a>".toList) = " x ".toList :=
  ⟨(boundary_content [] _ [] "<el-table-column a>".toList
      "<el-table-column b>\x7b\x7b scope.row.x \x7d\x7d</el-table-column>".toList
      (by decide) (fun _ _ _ => Nat.zero_le _) (by decide)).1
      "<el-table-column b>\x7b\x7b scope.row.x \x7d\x7d".toList [] (by decide)
      (fun a b h => find?_some_le (k := 36) (by decide) a b h),
    (boundary_content [] _ [] "<el-table-column a>".toList
      " x <el-table-column b>\x7b\x7b scope.row.x \x7d\x7d".toList
      (by decide) (fun _ _ _ => Nat.zero_le _) (by decide)).2.1
      (find?_none_split (by decide))
      " x ".toList " b>\x7b\x7b scope.row.x \x7d\x7d".toList (by decide)
      (fun a b h => find?_some_le (k := 3) (by decide) a b h)⟩

/-! ## Interactive components -/

theorem lastIndexOf_of_findLast? {s pat : Str} {k : Nat} (h : findLast? pat s = some k) :
    lastIndexOf s pat = (k : Int) := by
  simp [lastIndexOf, h]

theorem lastIndexOf_of_none {s pat : Str} (h : findLast? pat s = none) :
    lastIndexOf s pat = -1 := by
  simp [lastIndexOf, h]

/-- The position test of source line 152, in terms of occurrences. -/
theorem directlyInColumn_iff (pre : Str) :
    (lastIndexOf pre "<el-table-column".toList > -1 ∧
        lastIndexOf pre "<el-table-column".toList > lastIndexOf pre "<template".toList) ↔
      DirectlyInColumn pre := by
  constructor
  · rintro ⟨hpos, hgt⟩
    cases hc : findLast? "<el-table-column".toList pre with
    | none => rw [lastIndexOf_of_none hc] at hpos; omega
    | some k =>
      obtain ⟨a, b, hs, hlen, _⟩ := findLast?_some_split hc
      refine ⟨a, b, hs, ?_⟩
      intro a2 b2 h2
      cases ht : findLast? "<template".toList pre with
      | none => exact absurd h2 (findLast?_none_split ht a2 b2)
      | some j =>
        obtain ⟨_, _, _, _, hmax⟩ := findLast?_some_split ht
        have := hmax a2 b2 h2
        rw [lastIndexOf_of_findLast? hc, lastIndexOf_of_findLast? ht] at hgt
        omega
  · rintro ⟨a, b, hs, hlt⟩
    cases hc : findLast? "<el-table-column".toList pre with
    | none => exact absurd hs (findLast?_none_split hc a b)
    | some k =>
      obtain ⟨_, _, _, _, hmax⟩ := findLast?_some_split hc
      have hk := hmax a b hs
      rw [lastIndexOf_of_findLast? hc]
      refine ⟨by omega, ?_⟩
      cases ht : findLast? "<template".toList pre with
      | none => rw [lastIndexOf_of_none ht]; omega
      | some j =>
        obtain ⟨a3, b3, hs3, hlen3, _⟩ := findLast?_some_split ht
        have := hlt a3 b3 hs3
        rw [lastIndexOf_of_findLast? ht]
        omega

/-- The scope test of source line 157, in terms of occurrences. -/
theorem refersToRow_iff (m : Str) :
    (includes m "scope.row".toList || includes m "row.".toList) = true ↔ RefersToRow m := by
  rw [Bool.or_eq_true, includes_iff, includes_iff]
  rfl

set_option maxRecDepth 4000 in
/-- The region `<el-button :a="scope.row"></el-button><el-table-column><el-button
:a="scope.row"></el-button></el-table-column>`: the second `<el-button ...>`
stands directly inside a column and refers to `scope.row`, yet no component
error is reported, because the position test is made at the first occurrence
of the tag text, which stands before any column. -/
theorem component_duplicate_counterexample :
    matchTags "el-button".toList 0
        "<el-button :a=\"scope.row\"></el-button><el-table-column><el-button :a=\"scope.row\"></el-button></el-table-column>".toList =
      ["<el-button :a=\"scope.row\">".toList, "<el-button :a=\"scope.row\">".toList] ∧
    "<el-button :a=\"scope.row\"></el-button><el-table-column><el-button :a=\"scope.row\"></el-button></el-table-column>".toList =
      "<el-button :a=\"scope.row\"></el-button><el-table-column>".toList ++
        "<el-button :a=\"scope.row\">".toList ++ "</el-button></el-table-column>".toList ∧
    lastIndexOf "<el-button :a=\"scope.row\"></el-button><el-table-column>".toList
        "<el-table-column".toList = 38 ∧
    lastIndexOf "<el-button :a=\"scope.row\"></el-button><el-table-column>".toList
        "<template".toList = -1 ∧
    includes "<el-button :a=\"scope.row\">".toList "scope.row".toList = true ∧
    removeComments (extractTemplate
        "<template><el-button :a=\"scope.row\"></el-button><el-table-column><el-button :a=\"scope.row\"></el-button></el-table-column></template>".toList) =
      "<el-button :a=\"scope.row\"></el-button><el-table-column><el-button :a=\"scope.row\"></el-button></el-table-column>".toList ∧
    allComponentIssues
        "<template><el-button :a=\"scope.row\"></el-button><el-table-column><el-button :a=\"scope.row\"></el-button></el-table-column></template>".toList
        "<el-button :a=\"scope.row\"></el-button><el-table-column><el-button :a=\"scope.row\"></el-button></el-table-column>".toList
      = [] ∧
    checkTableIssues
        "<template><el-button :a=\"scope.row\"></el-button><el-table-column><el-button :a=\"scope.row\"></el-button></el-table-column></template>".toList
      = [scopeIssue 1] := by
  decide

/-- C9 (amended): for a component name of the fixed list and a match `m` of
its opening tag in the comment-stripped region, with `pre` the region text
before the first occurrence of the text `m`, an error naming the component is
pushed for the match if and only if `pre` ends directly inside a column (its
last `<el-table-column` exists and lies after its last `<template`, if any)
and `m` contains `scope.row` or `row.`; otherwise nothing is pushed. Matches
with the same tag text all get the decision made at the first occurrence.
What is pushed is part of the list `checkTableIssues` returns. -/
theorem component_error_iff (content clean : Str) (comp : String) (m pre post : Str)
    (hclean : removeComments (extractTemplate content) = clean)
    (hcomp : comp ∈ componentsNeedScope)
    (hm : m ∈ matchTags comp.toList 0 clean)
    (hsplit : clean = pre ++ m ++ post)
    (hfirst : ∀ a b, clean = a ++ m ++ b → pre.length ≤ a.length) :
    (componentIssues content clean comp m =
          [⟨lineNumOf content m, "error", componentMessage comp,
            "确保使用<template #default=\"scope\">包装"⟩] ↔
        DirectlyInColumn pre ∧ RefersToRow m) ∧
      (componentIssues content clean comp m = [] ↔
        ¬ (DirectlyInColumn pre ∧ RefersToRow m)) ∧
      List.Sublist (componentIssues content clean comp m) (checkTableIssues content) := by
  have hbefore : substring clean 0 (indexOf clean m) = pre := by
    subst hsplit
    rw [indexOf_of_find? (find?_of_first hfirst), substring_zero_nat, List.append_assoc,
      List.take_left]
  have hpos : DirectlyInColumn pre ∧ RefersToRow m →
      componentIssues content clean comp m = [componentIssue comp (lineNumOf content m)] := by
    rintro ⟨hd, hr⟩
    unfold componentIssues
    simp only [hbefore]
    rw [if_pos ((directlyInColumn_iff pre).2 hd), if_pos ((refersToRow_iff m).2 hr)]
  have hneg : ¬ (DirectlyInColumn pre ∧ RefersToRow m) →
      componentIssues content clean comp m = [] := by
    intro hn
    unfold componentIssues
    simp only [hbefore]
    by_cases hd : DirectlyInColumn pre
    · rw [if_pos ((directlyInColumn_iff pre).2 hd),
        if_neg (fun h => hn ⟨hd, (refersToRow_iff m).1 h⟩)]
    · rw [if_neg (fun h => hd ((directlyInColumn_iff pre).1 h))]
  refine ⟨⟨?_, hpos⟩, ⟨?_, hneg⟩, ?_⟩
  · intro h
    by_contra hn
    rw [hneg hn] at h
    exact absurd h (by simp)
  · intro h hp
    rw [hpos hp] at h
    exact absurd h (by simp)
  · subst hclean
    have hne : extractTemplate content ≠ [] := template_ne_nil_of_match hm
    rw [checkTableIssues_eq hne]
    apply List.Sublist.trans _ (List.sublist_append_right _ _)
    unfold allComponentIssues
    apply List.Sublist.trans _ (List.sublist_flatten_of_mem (List.mem_map_of_mem _ hcomp))
    exact List.sublist_flatten_of_mem (List.mem_map_of_mem _ hm)

/-- An `<el-switch ...>` on line 2, directly inside a column, bound to
`scope.row.on`. -/
theorem component_error_iff_witness :
    componentIssues
        "<template><el-table-column>\n<el-switch v-model=\"scope.row.on\"/>\n</el-table-column></template>".toList
        "<el-table-column>\n<el-switch v-model=\"scope.row.on\"/>\n</el-table-column>".toList
        "el-switch" "<el-switch v-model=\"scope.row.on\"/>".toList =
      [⟨2, "error", componentMessage "el-switch", "确保使用<template #default=\"scope\">包装"⟩] ∧
    List.Sublist
      (componentIssues
        "<template><el-table-column>\n<el-switch v-model=\"scope.row.on\"/>\n</el-table-column></template>".toList
        "<el-table-column>\n<el-switch v-model=\"scope.row.on\"/>\n</el-table-column>".toList
        "el-switch" "<el-switch v-model=\"scope.row.on\"/>".toList)
      (checkTableIssues
        "<template><el-table-column>\n<el-switch v-model=\"scope.row.on\"/>\n</el-table-column></template>".toList) :=
  have h := component_error_iff
    "<template><el-table-column>\n<el-switch v-model=\"scope.row.on\"/>\n</el-table-column></template>".toList
    "<el-table-column>\n<el-switch v-model=\"scope.row.on\"/>\n</el-table-column>".toList
    "el-switch" "<el-switch v-model=\"scope.row.on\"/>".toList
    "<el-table-column>\n".toList "\n</el-table-column>".toList
    (by decide) (by decide) (by decide) (by decide)
    (fun a b h => find?_some_le (k := 18) (by decide) a b h)
  ⟨h.1.2 ⟨⟨[], ">\n".toList, by decide,
      fun a2 b2 h2 => absurd h2 (find?_none_split (by decide) a2 b2)⟩,
      Or.inl (includes_iff.1 (by decide))⟩,
    h.2.2⟩

set_option maxRecDepth 4000 in
/-- C10: an `<el-button ...>` directly inside a column whose tag text refers
to the scope binding only through `scope.$index` gets no component error: the
component check looks for `scope.row` and `row.` only, while the per-tag check
of the same function recognises `scope.$index`. With `scope.row` in the same
place the component error is reported. -/
theorem component_scope_index_unreported :
    removeComments (extractTemplate
        "<template><el-table-column><el-button :i=\"scope.$index\"></el-button></el-table-column></template>".toList) =
      "<el-table-column><el-button :i=\"scope.$index\"></el-button></el-table-column>".toList ∧
    matchTags "el-button".toList 0
        "<el-table-column><el-button :i=\"scope.$index\"></el-button></el-table-column>".toList =
      ["<el-button :i=\"scope.$index\">".toList] ∧
    lastIndexOf "<el-table-column>".toList "<el-table-column".toList = 0 ∧
    lastIndexOf "<el-table-column>".toList "<template".toList = -1 ∧
    includes "<el-button :i=\"scope.$index\">".toList "scope.$index".toList = true ∧
    allComponentIssues
        "<template><el-table-column><el-button :i=\"scope.$index\"></el-button></el-table-column></template>".toList
        "<el-table-column><el-button :i=\"scope.$index\"></el-button></el-table-column>".toList = [] ∧
    checkTableIssues
        "<template><el-table-column><el-button :i=\"scope.$index\"></el-button></el-table-column></template>".toList =
      [scopeIssue 1] ∧
    checkTableIssues
        "<template><el-table-column><el-button :i=\"scope.row\"></el-button></el-table-column></template>".toList =
      [scopeIssue 1, componentIssue "el-button" 1] := by
  decide

/-! ## The comment stripper on text without comments -/

/-- Without an opening delimiter nothing is removed. -/
theorem removeDelimited_of_no_open {op cl : Str} :
    ∀ {s : Str}, (∀ a b, s ≠ a ++ op ++ b) → removeDelimited op cl 0 s = s := by
  intro s
  induction s with
  | nil => intro _; rfl
  | cons c cs ih =>
    intro hno
    have hp : ¬ op.isPrefixOf (c :: cs) = true := by
      intro hp
      obtain ⟨b, hb⟩ := isPrefixOf_eq_true_iff.1 hp
      exact hno [] b (by simpa using hb)
    have htail : ∀ a b, cs ≠ a ++ op ++ b := by
      intro a b h
      exact hno (c :: a) b (by simp [h])
    simp only [removeDelimited]
    rw [if_neg hp, ih htail]

/-- Without `//` the line comment pass removes nothing. -/
theorem removeLineComments_of_no_open :
    ∀ {s : Str}, (∀ a b, s ≠ a ++ "//".toList ++ b) → removeLineComments false s = s := by
  intro s
  induction s with
  | nil => intro _; rfl
  | cons c cs ih =>
    intro hno
    have hp : ¬ "//".toList.isPrefixOf (c :: cs) = true := by
      intro hp
      obtain ⟨b, hb⟩ := isPrefixOf_eq_true_iff.1 hp
      exact hno [] b (by simpa using hb)
    have htail : ∀ a b, cs ≠ a ++ "//".toList ++ b := by
      intro a b h
      exact hno (c :: a) b (by simp [h])
    simp only [removeLineComments]
    rw [if_neg hp, ih htail]

/-- The three passes leave a text without openers as it is. -/
theorem removeComments_eq_self {s : Str} (h : NoCommentOpener s) : removeComments s = s := by
  obtain ⟨h1, h2, h3⟩ := h
  unfold removeComments
  simp only
  rw [removeDelimited_of_no_open h1, removeLineComments_of_no_open h2,
    removeDelimited_of_no_open h3]

/-- C18: on a text that contains none of the comment openers `<!--`, `//` and
`/*`, `removeComments` returns the text unchanged. -/
theorem removeComments_of_no_opener (s : Str) (h : NoCommentOpener s) :
    removeComments s = s :=
  removeComments_eq_self h

/-- A template line with a closing `-->`, a single `/` and a `*` but no
opener. -/
theorem removeComments_of_no_opener_witness :
    removeComments "<el-table-column prop=\"a/b\" /> --> * </el-table-column>".toList =
      "<el-table-column prop=\"a/b\" /> --> * </el-table-column>".toList :=
  removeComments_of_no_opener _
    ⟨find?_none_split (by decide), find?_none_split (by decide), find?_none_split (by decide)⟩

/-! ## The region extractor -/

/-- A pattern that starts with `<` and has no other `<` does not overlap
itself: after a text in which it does not occur, its first occurrence is the
one that follows. -/
theorem first_of_no_overlap {a pat b : Str} (hlt : '<' ∉ pat)
    (hno : ∀ x y, a ≠ x ++ ('<' :: pat) ++ y) :
    ∀ a2 b2, a ++ ('<' :: pat) ++ b = a2 ++ ('<' :: pat) ++ b2 → a.length ≤ a2.length := by
  intro a2 b2 h
  by_contra hlen
  rw [List.append_assoc, List.append_assoc, List.append_eq_append_iff] at h
  rcases h with ⟨a', ha2, _⟩ | ⟨c', ha, hrest⟩
  · rw [ha2] at hlen
    simp at hlen
  · rw [List.append_eq_append_iff] at hrest
    rcases hrest with ⟨d, hc', hb⟩ | ⟨d, hpat, hb⟩
    · exact hno a2 d (by rw [ha, hc']; simp)
    · cases c' with
      | nil =>
        rw [ha] at hlen
        simp at hlen
      | cons x c2 =>
        cases d with
        | nil =>
          rw [List.append_nil] at hpat
          exact hno a2 [] (by rw [ha, ← hpat]; simp)
        | cons y d2 =>
          simp only [List.cons_append, List.cons.injEq] at hpat hb
          apply hlt
          rw [hpat.2, ← hb.1]
          simp

/-- The value of `extractTemplate` is a piece of its argument. -/
theorem extractTemplate_piece (content : Str) :
    ∃ a b, content = a ++ extractTemplate content ++ b := by
  unfold extractTemplate
  cases h1 : find? "<template>".toList content with
  | none => exact ⟨[], content, by simp⟩
  | some i =>
    simp only
    cases h2 : find? "</template>".toList
        (content.drop (i + "<template>".toList.length)) with
    | none => exact ⟨[], content, by simp⟩
    | some j =>
      refine ⟨content.take (i + "<template>".toList.length),
        (content.drop (i + "<template>".toList.length)).drop j, ?_⟩
      simp only [List.append_assoc, List.take_append_drop]

/-- C13: for a text `pre ++ "<template>" ++ inner ++ "</template>" ++ post`
where `<template>` does not occur in `pre` and `</template>` does not occur in
`inner`, `extractTemplate` returns `inner`, whatever `post` is; and for a text
that is not of this form it returns the empty string. -/
theorem extractTemplate_first_region (content : Str) :
    (∀ pre inner post,
        content = pre ++ "<template>".toList ++ inner ++ "</template>".toList ++ post →
        (∀ a b, pre ≠ a ++ "<template>".toList ++ b) →
        (∀ a b, inner ≠ a ++ "</template>".toList ++ b) →
        extractTemplate content = inner) ∧
      ((∀ pre inner post,
          content = pre ++ "<template>".toList ++ inner ++ "</template>".toList ++ post →
          (∀ a b, pre ≠ a ++ "<template>".toList ++ b) →
          (∀ a b, inner ≠ a ++ "</template>".toList ++ b) → False) →
        extractTemplate content = []) := by
  constructor
  · intro pre inner post hs hpre hinner
    have h1 : find? "<template>".toList content = some pre.length := by
      have hc : content = pre ++ "<template>".toList ++
          (inner ++ "</template>".toList ++ post) := by rw [hs]; simp
      rw [hc]
      exact find?_of_first
        (@first_of_no_overlap pre "template>".toList _ (by decide) hpre)
    have hd : content.drop (pre.length + "<template>".toList.length) =
        inner ++ "</template>".toList ++ post := by
      rw [hs, ← List.length_append]
      simp only [List.append_assoc]
      rw [← List.append_assoc pre, List.drop_left]
    have h2 : find? "</template>".toList (inner ++ "</template>".toList ++ post) =
        some inner.length :=
      find?_of_first (@first_of_no_overlap inner "/template>".toList _ (by decide) hinner)
    unfold extractTemplate
    simp only [h1, hd, h2]
    rw [List.append_assoc, List.take_left]
  · intro hnone
    unfold extractTemplate
    cases h1 : find? "<template>".toList content with
    | none => rfl
    | some i =>
      obtain ⟨a, r, hs, hlen, hmin⟩ := find?_some_split h1
      have hd : content.drop (i + "<template>".toList.length) = r := by
        rw [hs, ← hlen, ← List.length_append, List.drop_left]
      simp only [hd]
      cases h2 : find? "</template>".toList r with
      | none => rfl
      | some j =>
        exfalso
        obtain ⟨b, c, hr, hlen2, hmin2⟩ := find?_some_split h2
        refine hnone a b c (by rw [hs, hr]; simp) ?_ ?_
        · intro x y hxy
          have := hmin x (y ++ "<template>".toList ++ r) (by rw [hs, hxy]; simp)
          rw [← hlen, hxy] at this
          simp at this
        · intro x y hxy
          have := hmin2 x (y ++ "</template>".toList ++ c) (by rw [hr, hxy]; simp)
          rw [← hlen2, hxy] at this
          simp at this

/-- A file with two template regions: the first one is returned. -/
theorem extractTemplate_first_region_witness :
    extractTemplate "x<template>a</template>b<template>c</template>".toList = "a".toList :=
  (extractTemplate_first_region "x<template>a</template>b<template>c</template>".toList).1
    "x".toList "a".toList "b<template>c</template>".toList (by decide)
    (find?_none_split (by decide)) (find?_none_split (by decide))

/-! ## Order of the comment stripper and the region extractor -/

/-- A piece of a text without comment openers has none either. -/
theorem noCommentOpener_of_piece {s a t b : Str} (hs : s = a ++ t ++ b)
    (h : NoCommentOpener s) : NoCommentOpener t := by
  obtain ⟨h1, h2, h3⟩ := h
  refine ⟨?_, ?_, ?_⟩
  · intro x y hxy
    exact h1 (a ++ x) (y ++ b) (by rw [hs, hxy]; simp)
  · intro x y hxy
    exact h2 (a ++ x) (y ++ b) (by rw [hs, hxy]; simp)
  · intro x y hxy
    exact h3 (a ++ x) (y ++ b) (by rw [hs, hxy]; simp)

/-- A file whose first `<template>` ... `</template>` pair stands inside an
HTML comment: `checkTableIssues` extracts the commented region `x` and reports
nothing, while stripping the comments first leaves the real region
`<el-table-column>` and its missing closing tag. -/
theorem strip_first_counterexample :
    removeComments (extractTemplate
        "<!--<template>x</template>--><template><el-table-column></template>".toList) =
      "x".toList ∧
    extractTemplate (removeComments
        "<!--<template>x</template>--><template><el-table-column></template>".toList) =
      "<el-table-column>".toList ∧
    checkTableIssues
        "<!--<template>x</template>--><template><el-table-column></template>".toList = [] ∧
    checkTableIssuesStripFirst
        "<!--<template>x</template>--><template><el-table-column></template>".toList =
      [missingCloseIssue 1] := by
  decide

/-- An empty region gives no issue. -/
theorem regionIssues_nil (content : Str) : regionIssues content [] = [] := by
  have h1 : matchTags "el-table-column".toList 0 [] = [] := rfl
  have h2 : slotScopeIssues content [] = [] := by
    unfold slotScopeIssues
    rw [if_neg (by decide)]
  have h3 : allComponentIssues content [] = [] := by
    unfold allComponentIssues
    rw [List.flatMap_eq_nil_iff]
    intro comp _
    rfl
  unfold regionIssues
  rw [h1, h2, h3]
  rfl

/-- The region extracted first and stripped afterwards equals the region
stripped first and extracted afterwards when the content has no comment
opener. -/
theorem regions_agree_of_no_opener {content : Str} (h : NoCommentOpener content) :
    removeComments (extractTemplate content) = extractTemplate (removeComments content) := by
  obtain ⟨a, b, hab⟩ := extractTemplate_piece content
  rw [removeComments_eq_self h, removeComments_eq_self (noCommentOpener_of_piece hab h)]

/-- C11 (amended): for every file content, `checkTableIssues` returns the
issues of the tag scanner and issue classifier on the region
`removeComments (extractTemplate content)`, extracted from the raw text first
and stripped afterwards, while the pipeline in the order of the specification
returns those on `extractTemplate (removeComments content)`. The two lists are
equal whenever the two regions are equal, with or without comments in the
file; the regions are equal in particular when the content has no comment
opener. -/
theorem strip_order_same_region (content : Str) :
    checkTableIssues content =
        regionIssues content (removeComments (extractTemplate content)) ∧
      checkTableIssuesStripFirst content =
        regionIssues content (extractTemplate (removeComments content)) ∧
      (removeComments (extractTemplate content) = extractTemplate (removeComments content) →
        checkTableIssues content = checkTableIssuesStripFirst content) ∧
      (NoCommentOpener content →
        removeComments (extractTemplate content) =
          extractTemplate (removeComments content)) := by
  have h1 : checkTableIssues content =
      regionIssues content (removeComments (extractTemplate content)) := by
    unfold checkTableIssues
    simp only
    split
    · rename_i h0
      rw [h0, removeComments_nil, regionIssues_nil]
    · rfl
  have h2 : checkTableIssuesStripFirst content =
      regionIssues content (extractTemplate (removeComments content)) := by
    unfold checkTableIssuesStripFirst
    simp only
    split
    · rename_i h0
      rw [h0, regionIssues_nil]
    · rfl
  refine ⟨h1, h2, ?_, regions_agree_of_no_opener⟩
  intro heq
  rw [h1, h2, heq]

/-- A file with an HTML comment inside the template region: both orders give
the region `<el-table-column>`, and the same list. -/
theorem strip_order_same_region_witness :
    checkTableIssues "<template><!--c--><el-table-column></template>".toList =
      checkTableIssuesStripFirst "<template><!--c--><el-table-column></template>".toList :=
  (strip_order_same_region "<template><!--c--><el-table-column></template>".toList).2.2.1
    (by decide)

/-! ## Line numbers and types of the issues -/

/-- C12: when the matched tag text occurs in the file content, every per-tag
issue pushed for it has as line one more than the number of newlines before
the first occurrence of the tag text in the content; so the issues of two
matches with the same tag text carry the same line. -/
theorem column_issue_line (content clean tag p q : Str)
    (hs : content = p ++ tag ++ q)
    (hmin : ∀ p2 q2, content = p2 ++ tag ++ q2 → p.length ≤ p2.length) :
    (∀ i ∈ columnIssues content clean tag, i.line = 1 + p.count '\n') ∧
      ∀ m1 ∈ matchTags "el-table-column".toList 0 clean,
        ∀ m2 ∈ matchTags "el-table-column".toList 0 clean, m1 = m2 →
          ∀ i ∈ columnIssues content clean m1, ∀ j ∈ columnIssues content clean m2,
            i.line = j.line := by
  have hline : ∀ (m : Str) (i : Issue), i ∈ columnIssues content clean m →
      i.line = lineNumOf content m := by
    intro m i hi
    rcases mem_columnIssues hi with h | h | h <;> rw [h] <;> rfl
  constructor
  · intro i hi
    rw [hline tag i hi, lineNumOf_of_first hs hmin]
  · intro m1 _ m2 _ heq i hi j hj
    rw [hline m1 i hi, hline m2 j hj, heq]

/-- The tag `<el-table-column a>` stands on line 3 of the file and also, in a
comment, on line 5. -/
theorem column_issue_line_witness :
    (missingCloseIssue 3 ∈ columnIssues
        "<template>\n\n<el-table-column a>\n</template>\n<!-- <el-table-column a> -->".toList
        "\n\n<el-table-column a>\n".toList "<el-table-column a>".toList) ∧
      (missingCloseIssue 3).line = 1 + "<template>\n\n".toList.count '\n' :=
  ⟨by decide,
    (column_issue_line
      "<template>\n\n<el-table-column a>\n</template>\n<!-- <el-table-column a> -->".toList
      "\n\n<el-table-column a>\n".toList "<el-table-column a>".toList
      "<template>\n\n".toList "\n</template>\n<!-- <el-table-column a> -->".toList
      (by decide) (fun p2 q2 h => find?_some_le (k := 12) (by decide) p2 q2 h)).1
      (missingCloseIssue 3) (by decide)⟩

/-- The line number given to an issue lies within the file. -/
theorem lineNumOf_bounds (content tag : Str) :
    1 ≤ lineNumOf content tag ∧ lineNumOf content tag ≤ content.count '\n' + 1 := by
  unfold lineNumOf
  rw [split_length]
  refine ⟨by omega, ?_⟩
  cases h : find? tag content with
  | none =>
    rw [indexOf_of_none h, substring_zero_neg_one]
    simp
  | some k =>
    rw [indexOf_of_find? h, substring_zero_nat]
    have := (List.take_sublist k content).count_le '\n'
    omega

/-- The line number of the legacy slot warning lies within the file. -/
theorem slotLine_bounds (content pat : Str) :
    1 ≤ (split '\n' (splitHead content pat)).length ∧
      (split '\n' (splitHead content pat)).length ≤ content.count '\n' + 1 := by
  rw [split_length]
  refine ⟨by omega, ?_⟩
  unfold splitHead
  cases h : find? pat content with
  | none => simp
  | some k =>
    have := (List.take_sublist k content).count_le '\n'
    simp only
    omega

/-- C14: every issue in the list returned by `checkTableIssues` has type
`error` or `warning` and a line between 1 and the number of lines of the file
content (its number of newlines plus one), also when the matched text is not
found in the content. -/
theorem issue_type_and_line (content : Str) :
    ∀ i ∈ checkTableIssues content,
      (i.type = "error" ∨ i.type = "warning") ∧
        1 ≤ i.line ∧ i.line ≤ content.count '\n' + 1 := by
  intro i hi
  unfold checkTableIssues at hi
  simp only at hi
  split at hi
  · simp at hi
  · rcases List.mem_append.1 hi with h1 | h1
    · rcases List.mem_append.1 h1 with h2 | h2
      · obtain ⟨m, _, h3⟩ := List.mem_flatMap.1 h2
        have hb := lineNumOf_bounds content m
        rcases mem_columnIssues h3 with h | h | h <;> rw [h]
        · exact ⟨Or.inl rfl, hb⟩
        · exact ⟨Or.inr rfl, hb⟩
        · exact ⟨Or.inl rfl, hb⟩
      · unfold slotScopeIssues at h2
        split at h2
        · rw [List.mem_singleton.1 h2]
          exact ⟨Or.inr rfl, slotLine_bounds content _⟩
        · simp at h2
    · obtain ⟨comp, _, m, _, h3⟩ := mem_allComponentIssues h1
      rw [h3]
      exact ⟨Or.inl rfl, lineNumOf_bounds content m⟩

/-- The tag `<el-table-column a>` of the stripped region is interrupted by a
comment in the file, so its text is not found there: its issue gets line 1. -/
theorem issue_type_and_line_witness :
    ((missingCloseIssue 1).type = "error" ∨ (missingCloseIssue 1).type = "warning") ∧
      1 ≤ (missingCloseIssue 1).line ∧
      (missingCloseIssue 1).line ≤
        "<template>\n<el-table-column <!--x-->a>\n</template>".toList.count '\n' + 1 :=
  issue_type_and_line "<template>\n<el-table-column <!--x-->a>\n</template>".toList
    (missingCloseIssue 1) (by decide)

/-! ## Order of the issues -/

/-- A list whose issues all come from the same rule is ordered by rule. -/
theorem pairwise_of_rank {l : List Issue} {r : Nat} (h : ∀ i ∈ l, ruleRank i = r) :
    l.Pairwise (fun i j => ruleRank i ≤ ruleRank j) := by
  induction l with
  | nil => exact List.Pairwise.nil
  | cons x xs ih =>
    rw [List.pairwise_cons]
    refine ⟨?_, ih (fun i hi => h i (List.mem_cons_of_mem _ hi))⟩
    intro j hj
    rw [h x (List.mem_cons_self _ _), h j (List.mem_cons_of_mem _ hj)]

theorem ruleRank_of_mem_columnIssues {content clean tag : Str} {i : Issue}
    (h : i ∈ columnIssues content clean tag) : ruleRank i = 0 := by
  unfold ruleRank
  rcases mem_columnIssues h with h | h | h <;> rw [h]
  · exact if_pos (Or.inl rfl)
  · exact if_pos (Or.inr (Or.inl rfl))
  · exact if_pos (Or.inr (Or.inr rfl))

theorem ruleRank_of_mem_slotScopeIssues {content clean : Str} {i : Issue}
    (h : i ∈ slotScopeIssues content clean) : ruleRank i = 1 := by
  have hm := mem_slotScopeIssues h
  unfold ruleRank
  rw [hm, if_neg, if_pos rfl]
  rintro (h1 | h1 | h1)
  · exact scopeMessage_ne_slotScope h1.symm
  · exact customMessage_ne_slotScope h1.symm
  · exact missingCloseMessage_ne_slotScope h1.symm

theorem ruleRank_of_mem_allComponentIssues {content clean : Str} {i : Issue}
    (h : i ∈ allComponentIssues content clean) : ruleRank i = 2 := by
  obtain ⟨comp, hcomp, m, _, hi⟩ := mem_allComponentIssues h
  have hm : i.message = componentMessage comp := by rw [hi]; rfl
  unfold ruleRank
  rw [hm, if_neg, if_neg (componentMessage_ne_slotScope hcomp)]
  rintro (h1 | h1 | h1)
  · exact componentMessage_ne_scope hcomp h1
  · exact componentMessage_ne_custom hcomp h1
  · exact componentMessage_ne_missingClose hcomp h1

/-- A file with `slot-scope=` on line 2 and a column with an unwrapped scope
reference on line 3: the per-tag error of line 3 comes before the legacy slot
warning of line 2. -/
theorem line_order_counterexample :
    checkTableIssues
        "<template>\n<a slot-scope=\"s\"></a>\n<el-table-column>\x7b\x7b scope.row \x7d\x7d</el-table-column></template>".toList =
      [scopeIssue 3, slotScopeIssue 2] ∧
    ¬ ((checkTableIssues
        "<template>\n<a slot-scope=\"s\"></a>\n<el-table-column>\x7b\x7b scope.row \x7d\x7d</el-table-column></template>".toList).map
          (fun i => i.line)).Pairwise (fun x y => x ≤ y) := by
  decide

/-- C15 (amended): the issues in the list returned by `checkTableIssues` are
in the order of the detection rules: the per-tag issues come first, then the
legacy slot warning, then the interactive component errors. -/
theorem issues_in_rule_order (content : Str) :
    (checkTableIssues content).Pairwise (fun i j => ruleRank i ≤ ruleRank j) := by
  unfold checkTableIssues
  simp only
  split
  · exact List.Pairwise.nil
  · rw [List.pairwise_append, List.pairwise_append]
    refine ⟨⟨?_, ?_, ?_⟩, ?_, ?_⟩
    · apply pairwise_of_rank (r := 0)
      intro i hi
      obtain ⟨m, _, h⟩ := List.mem_flatMap.1 hi
      exact ruleRank_of_mem_columnIssues h
    · exact pairwise_of_rank (fun i hi => ruleRank_of_mem_slotScopeIssues hi)
    · intro i hi j hj
      obtain ⟨m, _, h⟩ := List.mem_flatMap.1 hi
      rw [ruleRank_of_mem_columnIssues h]
      exact Nat.zero_le _
    · exact pairwise_of_rank (fun i hi => ruleRank_of_mem_allComponentIssues hi)
    · intro i hi j hj
      rw [ruleRank_of_mem_allComponentIssues hj]
      rcases List.mem_append.1 hi with h | h
      · obtain ⟨m, _, h⟩ := List.mem_flatMap.1 h
        rw [ruleRank_of_mem_columnIssues h]
        exact Nat.zero_le _
      · rw [ruleRank_of_mem_slotScopeIssues h]
        exact Nat.le_succ _

/-! ## The custom-content warning -/

/-- A member of a list has a first occurrence. -/
theorem exists_first_split {x : Char} :
    ∀ {l : Str}, x ∈ l → ∃ u e, l = u ++ x :: e ∧ x ∉ u := by
  intro l
  induction l with
  | nil => intro h; simp at h
  | cons y ys ih =>
    intro h
    by_cases hy : y = x
    · exact ⟨[], ys, by simp [hy], by simp⟩
    · rcases List.mem_cons.1 h with h1 | h1
      · exact absurd h1.symm hy
      · obtain ⟨u, e, hl, hu⟩ := ih h1
        refine ⟨y :: u, e, by simp [hl], ?_⟩
        intro hmem
        rcases List.mem_cons.1 hmem with h2 | h2
        · exact hy h2.symm
        · exact hu h2

/-- The regular expression test of source line 105, in terms of occurrences. -/
theorem hasMarkupTag_iff (c : Str) : hasMarkupTag c = true ↔ HasMarkup c := by
  constructor
  · induction c with
    | nil => intro h; simp [hasMarkupTag] at h
    | cons x xs ih =>
      intro h
      simp only [hasMarkupTag, Bool.or_eq_true, Bool.and_eq_true, beq_iff_eq] at h
      rcases h with ⟨hx, hrest⟩ | h
      · cases xs with
        | nil => simp at hrest
        | cons d ds =>
          simp only [Bool.and_eq_true, bne_iff_ne, ne_eq, List.contains_iff_exists_mem_beq,
            beq_iff_eq] at hrest
          obtain ⟨hd, y, hy, hyeq⟩ := hrest
          have hmem : '>' ∈ ds := by rw [hyeq]; exact hy
          obtain ⟨u, e, hl, hu⟩ := exists_first_split hmem
          refine ⟨[], d :: u, e, by simp [hx, hl], by simp, ?_⟩
          intro hm
          rcases List.mem_cons.1 hm with h2 | h2
          · exact hd h2.symm
          · exact hu h2
      · obtain ⟨a, body, e, hs, hne, hgt⟩ := ih h
        exact ⟨x :: a, body, e, by simp [hs], hne, hgt⟩
  · rintro ⟨a, body, e, hs, hne, hgt⟩
    subst hs
    induction a with
    | nil =>
      cases body with
      | nil => exact absurd rfl hne
      | cons d u =>
        have hd : d ≠ '>' := fun h => hgt (by simp [h])
        simp [hasMarkupTag, hd]
    | cons x a ih =>
      simp only [List.cons_append, hasMarkupTag, Bool.or_eq_true]
      exact Or.inr ih

/-- Scenario 2 of the specification: the column content
`{{ scope.row.name }}` is plain text without any `<`, and the scope error is
pushed for it. -/
theorem plain_text_scope_counterexample :
    hasMarkupTag "\x7b\x7b scope.row.name \x7d\x7d".toList = false ∧
    includes "\x7b\x7b scope.row.name \x7d\x7d".toList "<".toList = false ∧
    contentIssues 1 "\x7b\x7b scope.row.name \x7d\x7d".toList = [scopeIssue 1] ∧
    columnIssues
        "<template><el-table-column>\x7b\x7b scope.row.name \x7d\x7d</el-table-column></template>".toList
        "<el-table-column>\x7b\x7b scope.row.name \x7d\x7d</el-table-column>".toList
        "<el-table-column>".toList = [scopeIssue 1] := by
  decide

/-- C16 (amended): for a non-self-closing target tag text that occurs once in
the region and is followed by `</el-table-column>`, with `c` the text up to
that closing tag, the custom-content warning is pushed for the tag if and only
if `c` is non-empty after trimming, contains no `<template`, contains neither
`scope.row` nor `scope.$index`, and contains a markup tag. No content issue at
all is pushed when `c` contains `<template`, nor when `c` has no markup tag
and no scope reference. -/
theorem custom_warning_iff (content clean pre tag c post : Str)
    (hsplit : clean = pre ++ tag ++ c ++ "</el-table-column>".toList ++ post)
    (hopen : endsWith tag "/>".toList = false)
    (honce : ∀ a b, clean = a ++ tag ++ b → a = pre)
    (hclose : ∀ a b, c ++ "</el-table-column>".toList ++ post =
      a ++ "</el-table-column>".toList ++ b → c.length ≤ a.length) :
    ((⟨lineNumOf content tag, "warning", customMessage,
          "考虑使用<template #default=\"scope\">包装自定义内容"⟩ : Issue) ∈
          columnIssues content clean tag ↔
        trim c ≠ [] ∧ (∀ a b, c ≠ a ++ "<template".toList ++ b) ∧
          (∀ a b, c ≠ a ++ "scope.row".toList ++ b) ∧
          (∀ a b, c ≠ a ++ "scope.$index".toList ++ b) ∧ HasMarkup c) ∧
      ((∃ a b, c = a ++ "<template".toList ++ b) →
        ∀ i ∈ columnIssues content clean tag,
          i.message ≠ scopeMessage ∧ i.message ≠ customMessage) ∧
      (¬ HasMarkup c → (∀ a b, c ≠ a ++ "scope.row".toList ++ b) →
        (∀ a b, c ≠ a ++ "scope.$index".toList ++ b) →
        ∀ i ∈ columnIssues content clean tag,
          i.message ≠ scopeMessage ∧ i.message ≠ customMessage) := by
  have hafter : afterTagOf clean tag = c ++ "</el-table-column>".toList ++ post :=
    @afterTagOf_of_first clean pre tag _ (by rw [hsplit]; simp)
      (fun a b h => by rw [honce a b h])
  have hcol : columnIssues content clean tag =
      contentIssues (lineNumOf content tag) c ++
        closingIssues (lineNumOf content tag) (afterTagOf clean tag) := by
    unfold columnIssues
    simp only [hopen]
    rw [hafter, contentBetweenOf_of_close hclose]
    rfl
  have hinc : ∀ pat : Str, includes c pat = false ↔ ∀ a b, c ≠ a ++ pat ++ b := by
    intro pat
    rw [← Bool.not_eq_true, includes_iff]
    exact ⟨fun h a b hab => h ⟨a, b, hab⟩, fun h ⟨a, b, hab⟩ => h a b hab⟩
  have hclosing : ∀ i ∈ closingIssues (lineNumOf content tag) (afterTagOf clean tag),
      i = missingCloseIssue (lineNumOf content tag) := by
    intro i hi
    rcases closingIssues_cases (lineNumOf content tag) (afterTagOf clean tag) with h | h
    · rw [h] at hi; simp at hi
    · rw [h] at hi; exact List.mem_singleton.1 hi
  have hquiet : contentIssues (lineNumOf content tag) c = [] →
      ∀ i ∈ columnIssues content clean tag,
        i.message ≠ scopeMessage ∧ i.message ≠ customMessage := by
    intro h0 i hi
    rw [hcol, h0, List.nil_append] at hi
    rw [hclosing i hi]
    exact ⟨scopeMessage_ne_missingClose.symm, customMessage_ne_missingClose.symm⟩
  refine ⟨?_, ?_, ?_⟩
  · rw [hcol, List.mem_append]
    constructor
    · rintro (h | h)
      · unfold contentIssues at h
        split at h
        · rename_i htrim
          split at h
          · rename_i hwrap
            split at h
            · rw [List.mem_singleton] at h
              have := congrArg Issue.message h
              exact absurd this.symm scopeMessage_ne_custom
            · rename_i hscope
              split at h
              · rename_i hmark
                simp only [Bool.not_eq_true', Bool.or_eq_true, not_or,
                  Bool.not_eq_true] at hwrap hscope
                exact ⟨htrim, (hinc _).1 hwrap, (hinc _).1 hscope.1, (hinc _).1 hscope.2,
                  (hasMarkupTag_iff c).1 hmark⟩
              · simp at h
          · simp at h
        · simp at h
      · have := congrArg Issue.message (hclosing _ h)
        exact absurd this customMessage_ne_missingClose
    · rintro ⟨htrim, hwrap, hs1, hs2, hmark⟩
      left
      unfold contentIssues
      rw [if_pos htrim, (hinc _).2 hwrap, (hinc _).2 hs1, (hinc _).2 hs2,
        (hasMarkupTag_iff c).2 hmark]
      simp [customIssue]
  · rintro ⟨a, b, hab⟩
    apply hquiet
    unfold contentIssues
    have : includes c "<template".toList = true := includes_iff.2 ⟨a, b, hab⟩
    rw [this]
    simp
  · intro hmark hs1 hs2
    apply hquiet
    unfold contentIssues
    have hm : hasMarkupTag c = false := by
      rw [← Bool.not_eq_true]
      exact fun h => hmark ((hasMarkupTag_iff c).1 h)
    rw [(hinc _).2 hs1, (hinc _).2 hs2, hm]
    simp

/-- A column whose content is `<span>text</span>`: the warning is pushed. -/
theorem custom_warning_iff_witness :
    (⟨1, "warning", customMessage, "考虑使用<template #default=\"scope\">包装自定义内容"⟩ : Issue) ∈
      columnIssues
        "<template><el-table-column><span>text</span></el-table-column></template>".toList
        "<el-table-column><span>text</span></el-table-column>".toList
        "<el-table-column>".toList :=
  (custom_warning_iff
    "<template><el-table-column><span>text</span></el-table-column></template>".toList
    "<el-table-column><span>text</span></el-table-column>".toList
    [] "<el-table-column>".toList "<span>text</span>".toList []
    (by decide) (by decide)
    (fun a b h => unique_of_find?_eq_findLast? (k := 0) (by decide) (by decide) a b h)
    (fun a b h => find?_some_le (k := 17) (by decide) a b h)).1.2
    ⟨by decide, find?_none_split (by decide), find?_none_split (by decide),
      find?_none_split (by decide),
      ⟨[], "span".toList, "text</span>".toList, by decide, by decide, by decide⟩⟩

/-! ## Line comments -/

/-- A text without `//` is a text without two neighbouring `/`. -/
theorem chain_of_no_slashes :
    ∀ {l : Str}, (∀ a b, l ≠ a ++ "//".toList ++ b) → List.Chain' NoSlashPair l := by
  intro l
  induction l with
  | nil => intro _; exact List.chain'_nil
  | cons x xs ih =>
    intro hno
    rw [List.chain'_cons']
    constructor
    · intro y hy
      rintro ⟨hx, hy2⟩
      cases xs with
      | nil => simp at hy
      | cons z zs =>
        simp only [List.head?_cons, Option.mem_def, Option.some.injEq] at hy
        exact hno [] zs (by simp [hx, hy, hy2])
    · exact ih (fun a b h => hno (x :: a) b (by simp [h]))

/-- A text without two neighbouring `/` is a text without `//`. -/
theorem no_slashes_of_chain {l : Str} (h : List.Chain' NoSlashPair l) :
    ∀ a b, l ≠ a ++ "//".toList ++ b := by
  intro a b hl
  rw [hl, List.append_assoc] at h
  have h2 := h.right_of_append
  have h3 : List.Chain' NoSlashPair ('/' :: '/' :: b) := by simpa using h2
  rw [List.chain'_cons] at h3
  exact h3.1 ⟨rfl, rfl⟩

/-- Inside a line comment the next character kept is a line terminator. -/
theorem head_removeLineComments_true :
    ∀ s : Str, (removeLineComments true s).head? ≠ some '/' := by
  intro s
  induction s with
  | nil => simp [removeLineComments]
  | cons c cs ih =>
    simp only [removeLineComments]
    split
    · rename_i ht
      simp only [List.head?_cons, ne_eq, Option.some.injEq]
      intro hc
      rw [hc] at ht
      revert ht
      decide
    · exact ih

/-- Outside a comment a `/` is kept only where the text has one. -/
theorem head_removeLineComments_false {s : Str}
    (h : (removeLineComments false s).head? = some '/') : s.head? = some '/' := by
  cases s with
  | nil => simp [removeLineComments] at h
  | cons c cs =>
    simp only [removeLineComments] at h
    split at h
    · exact absurd h (head_removeLineComments_true cs)
    · simpa using h

/-- The line comment pass leaves no two neighbouring `/`. -/
theorem chain_removeLineComments :
    ∀ (s : Str) (b : Bool), List.Chain' NoSlashPair (removeLineComments b s) := by
  intro s
  induction s with
  | nil => intro b; cases b <;> exact List.chain'_nil
  | cons c cs ih =>
    intro b
    cases b with
    | true =>
      simp only [removeLineComments]
      split
      · rename_i ht
        apply (ih false).cons'
        intro y _
        rintro ⟨hc, _⟩
        rw [hc] at ht
        revert ht
        decide
      · exact ih true
    | false =>
      simp only [removeLineComments]
      split
      · exact ih true
      · rename_i hp
        apply (ih false).cons'
        intro y hy
        rintro ⟨hc, hy2⟩
        apply hp
        rw [hy2] at hy
        have := head_removeLineComments_false (Option.mem_def.1 hy)
        cases cs with
        | nil => simp at this
        | cons d ds =>
          simp only [List.head?_cons, Option.some.injEq] at this
          rw [hc, this]
          exact isPrefixOf_eq_true_iff.2 ⟨ds, rfl⟩

/-- The block comment pass keeps a `/` at the head only where the text has
one. -/
theorem head_removeBlock {s : Str}
    (h : (removeDelimited "/*".toList "*/".toList 0 s).head? = some '/') :
    s.head? = some '/' := by
  cases s with
  | nil => simp [removeDelimited] at h
  | cons c cs =>
    by_cases hp : "/*".toList.isPrefixOf (c :: cs) = true
    · obtain ⟨b, hb⟩ := isPrefixOf_eq_true_iff.1 hp
      simp only [String.toList, List.cons_append, List.cons.injEq] at hb
      simp [hb.1]
    · simp only [removeDelimited, if_neg hp] at h
      simpa using h

/-- The block comment pass creates no two neighbouring `/`. -/
theorem chain_removeBlock :
    ∀ (s : Str) (n : Nat), List.Chain' NoSlashPair s →
      List.Chain' NoSlashPair (removeDelimited "/*".toList "*/".toList n s) := by
  intro s
  induction s with
  | nil => intro n _; rw [removeDelimited_nil]; exact List.chain'_nil
  | cons c cs ih =>
    intro n hs
    have hcs : List.Chain' NoSlashPair cs := by simpa using hs.tail
    have keep : List.Chain' NoSlashPair
        (c :: removeDelimited "/*".toList "*/".toList 0 cs) := by
      apply (ih 0 hcs).cons'
      intro y hy
      rintro ⟨hc, hy2⟩
      rw [hy2] at hy
      have := head_removeBlock (Option.mem_def.1 hy)
      cases cs with
      | nil => simp at this
      | cons d ds =>
        simp only [List.head?_cons, Option.some.injEq] at this
        rw [List.chain'_cons] at hs
        exact hs.1 ⟨hc, this⟩
    cases n with
    | succ k =>
      simp only [removeDelimited]
      exact ih k hcs
    | zero =>
      simp only [removeDelimited]
      split
      · split
        · exact ih _ hcs
        · exact keep
      · exact keep

/-- Outside a comment a character that does not start `//` is kept. -/
theorem removeLineComments_false_cons {c : Char} {cs : Str}
    (hp : ¬ "//".toList.isPrefixOf (c :: cs) = true) :
    removeLineComments false (c :: cs) = c :: removeLineComments false cs := by
  simp only [removeLineComments]
  rw [if_neg hp]

/-- Up to the first `//` the line comment pass keeps the text, and there it
enters the comment. -/
theorem removeLineComments_upto {w : Str} :
    ∀ {a : Str}, (∀ x y, a ++ ['/'] ≠ x ++ "//".toList ++ y) →
      removeLineComments false (a ++ "//".toList ++ w) = a ++ removeLineComments true w := by
  intro a
  induction a with
  | nil =>
    intro _
    have ht : isLineTerminator '/' = false := by decide
    have hp : "//".toList.isPrefixOf ('/' :: '/' :: w) = true :=
      isPrefixOf_eq_true_iff.2 ⟨w, rfl⟩
    show removeLineComments false ('/' :: '/' :: w) = removeLineComments true w
    simp only [removeLineComments, hp, ht, if_true]
    rfl
  | cons c cs ih =>
    intro hno
    have hp : ¬ "//".toList.isPrefixOf (c :: cs ++ "//".toList ++ w) = true := by
      intro hp
      obtain ⟨b, hb⟩ := isPrefixOf_eq_true_iff.1 hp
      cases cs with
      | nil =>
        simp only [String.toList, List.cons_append, List.nil_append, List.cons.injEq] at hb
        exact hno [] [] (by simp [hb.1])
      | cons d ds =>
        simp only [String.toList, List.cons_append, List.cons.injEq] at hb
        exact hno [] (ds ++ ['/']) (by simp [hb.1, hb.2.1])
    have htail : ∀ x y, cs ++ ['/'] ≠ x ++ "//".toList ++ y :=
      fun x y h => hno (c :: x) y (by simp [h])
    have hstep : removeLineComments false (c :: cs ++ "//".toList ++ w) =
        c :: removeLineComments false (cs ++ "//".toList ++ w) :=
      removeLineComments_false_cons hp
    rw [hstep, ih htail]
    rfl

/-- Inside a line comment everything up to the line terminator is dropped. -/
theorem removeLineComments_rest {t : Char} {rest : Str} (ht : isLineTerminator t = true) :
    ∀ {r : Str}, (∀ c ∈ r, isLineTerminator c = false) →
      removeLineComments true (r ++ t :: rest) = t :: removeLineComments false rest := by
  intro r
  induction r with
  | nil => intro _; simp [removeLineComments, ht]
  | cons c cs ih =>
    intro hr
    have hc : isLineTerminator c = false := hr c (List.mem_cons_self _ _)
    simp only [List.cons_append, removeLineComments, hc]
    exact ih (fun x hx => hr x (List.mem_cons_of_mem _ hx))

/-- Text without `//` is kept up to a following text that does not start
with `/`. -/
theorem removeLineComments_keep {w : Str} (hw : w.head? ≠ some '/') :
    ∀ {l : Str}, (∀ x y, l ≠ x ++ "//".toList ++ y) →
      removeLineComments false (l ++ w) = l ++ removeLineComments false w := by
  intro l
  induction l with
  | nil => intro _; rfl
  | cons c cs ih =>
    intro hno
    have hp : ¬ "//".toList.isPrefixOf (c :: (cs ++ w)) = true := by
      intro hp
      obtain ⟨b, hb⟩ := isPrefixOf_eq_true_iff.1 hp
      cases cs with
      | nil =>
        simp only [String.toList, List.cons_append, List.nil_append, List.cons.injEq] at hb
        apply hw
        rw [hb.2]
        rfl
      | cons d ds =>
        simp only [String.toList, List.cons_append, List.cons.injEq] at hb
        exact hno [] ds (by simp [hb.1, hb.2.1])
    have htail : ∀ x y, cs ≠ x ++ "//".toList ++ y :=
      fun x y h => hno (c :: x) y (by simp [h])
    show removeLineComments false (c :: (cs ++ w)) = c :: (cs ++ removeLineComments false w)
    rw [removeLineComments_false_cons hp, ih htail]

/-- Inside a line comment a text without line terminator is dropped whole. -/
theorem removeLineComments_true_end :
    ∀ {r : Str}, (∀ c ∈ r, isLineTerminator c = false) → removeLineComments true r = [] := by
  intro r
  induction r with
  | nil => intro _; rfl
  | cons c cs ih =>
    intro hr
    have hc : isLineTerminator c = false := hr c (List.mem_cons_self _ _)
    simp only [removeLineComments, hc]
    exact ih (fun x hx => hr x (List.mem_cons_of_mem _ hx))

/-- The text before the first `//` of a line, followed by a `/`, holds no
`//`. -/
theorem no_slashes_before_first {l a r : Str} (hs : l = a ++ "//".toList ++ r)
    (hmin : ∀ x y, l = x ++ "//".toList ++ y → a.length ≤ x.length) :
    ∀ x y, a ++ ['/'] ≠ x ++ "//".toList ++ y := by
  intro x y hxy
  have h1 : l = x ++ "//".toList ++ (y ++ '/' :: r) := by
    have e : l = (a ++ ['/']) ++ '/' :: r := by rw [hs]; simp
    rw [e, hxy]
    simp
  have h2 := hmin x _ h1
  have h3 := congrArg List.length hxy
  simp at h3
  omega

/-- The line comment pass cuts a line at its first `//` and goes on after the
line terminator. -/
theorem removeLineComments_line {l rest : Str} {t : Char}
    (hl : ∀ c ∈ l, isLineTerminator c = false) (ht : isLineTerminator t = true) :
    removeLineComments false (l ++ t :: rest) =
      splitHead l "//".toList ++ t :: removeLineComments false rest := by
  have htslash : t ≠ '/' := by
    intro h
    rw [h] at ht
    revert ht
    decide
  unfold splitHead
  cases hf : find? "//".toList l with
  | none =>
    have hp : ¬ "//".toList.isPrefixOf (t :: rest) = true := by
      intro hp
      obtain ⟨b, hb⟩ := isPrefixOf_eq_true_iff.1 hp
      simp only [String.toList, List.cons_append, List.cons.injEq] at hb
      exact htslash hb.1
    simp only
    rw [removeLineComments_keep (by simpa using htslash) (find?_none_split hf),
      removeLineComments_false_cons hp]
  | some k =>
    obtain ⟨a, r, hs, hlen, hmin⟩ := find?_some_split hf
    have hr : ∀ c ∈ r, isLineTerminator c = false := by
      intro c hc
      exact hl c (by rw [hs]; simp [hc])
    have htake : l.take k = a := by
      rw [hs, ← hlen, List.append_assoc, List.take_left]
    simp only [htake]
    have e : l ++ t :: rest = a ++ "//".toList ++ (r ++ t :: rest) := by rw [hs]; simp
    rw [e, removeLineComments_upto
      (no_slashes_before_first hs (fun x y h => by rw [hlen]; exact hmin x y h)),
      removeLineComments_rest ht hr]

/-- The line comment pass cuts a last line, without line terminator, at its
first `//`. -/
theorem removeLineComments_last {l : Str} (hl : ∀ c ∈ l, isLineTerminator c = false) :
    removeLineComments false l = splitHead l "//".toList := by
  unfold splitHead
  cases hf : find? "//".toList l with
  | none => exact removeLineComments_of_no_open (find?_none_split hf)
  | some k =>
    obtain ⟨a, r, hs, hlen, hmin⟩ := find?_some_split hf
    have hr : ∀ c ∈ r, isLineTerminator c = false := by
      intro c hc
      exact hl c (by rw [hs]; simp [hc])
    have htake : l.take k = a := by
      rw [hs, ← hlen, List.append_assoc, List.take_left]
    simp only [htake]
    rw [hs, removeLineComments_upto
      (no_slashes_before_first hs (fun x y h => by rw [hlen]; exact hmin x y h)),
      removeLineComments_true_end hr, List.append_nil]

theorem linesOf_line {l rest : Str} {t : Char} (ht : isLineTerminator t = true) :
    (∀ c ∈ l, isLineTerminator c = false) → linesOf (l ++ t :: rest) = l :: linesOf rest := by
  induction l with
  | nil => intro _; simp [linesOf, ht]
  | cons c cs ih =>
    intro hl
    have hc : isLineTerminator c = false := hl c (List.mem_cons_self _ _)
    have h := ih (fun x hx => hl x (List.mem_cons_of_mem _ hx))
    show linesOf (c :: (cs ++ t :: rest)) = (c :: cs) :: linesOf rest
    simp only [linesOf, hc, Bool.false_eq_true, if_false, h]

theorem linesOf_last {l : Str} :
    (∀ c ∈ l, isLineTerminator c = false) → linesOf l = [l] := by
  induction l with
  | nil => intro _; rfl
  | cons c cs ih =>
    intro hl
    have hc : isLineTerminator c = false := hl c (List.mem_cons_self _ _)
    have h := ih (fun x hx => hl x (List.mem_cons_of_mem _ hx))
    simp only [linesOf, hc, Bool.false_eq_true, if_false, h]

theorem terminatorsOf_line {l rest : Str} {t : Char} (ht : isLineTerminator t = true)
    (hl : ∀ c ∈ l, isLineTerminator c = false) :
    terminatorsOf (l ++ t :: rest) = t :: terminatorsOf rest := by
  unfold terminatorsOf
  rw [List.filter_append, List.filter_cons_of_pos ht]
  have : l.filter isLineTerminator = [] := by
    rw [List.filter_eq_nil_iff]
    intro c hc
    rw [hl c hc]
    simp
  rw [this, List.nil_append]

theorem terminatorsOf_last {l : Str} (hl : ∀ c ∈ l, isLineTerminator c = false) :
    terminatorsOf l = [] := by
  unfold terminatorsOf
  rw [List.filter_eq_nil_iff]
  intro c hc
  rw [hl c hc]
  simp

/-- A text is a single line, or a first line, a line terminator and a rest. -/
theorem first_line_split :
    ∀ s : Str, (∀ c ∈ s, isLineTerminator c = false) ∨
      ∃ l t rest, s = l ++ t :: rest ∧ (∀ c ∈ l, isLineTerminator c = false) ∧
        isLineTerminator t = true := by
  intro s
  induction s with
  | nil => left; intro c hc; simp at hc
  | cons x xs ih =>
    by_cases hx : isLineTerminator x = true
    · exact Or.inr ⟨[], x, xs, rfl, fun c hc => by simp at hc, hx⟩
    · have hx2 : isLineTerminator x = false := by simpa using hx
      rcases ih with h | ⟨l, t, rest, hs, hl, ht⟩
      · left
        intro c hc
        rcases List.mem_cons.1 hc with rfl | h2
        · exact hx2
        · exact h c h2
      · right
        refine ⟨x :: l, t, rest, by simp [hs], ?_, ht⟩
        intro c hc
        rcases List.mem_cons.1 hc with rfl | h2
        · exact hx2
        · exact hl c h2

/-- The line comment pass is the rule of the specification: every line is cut
at its first `//`. -/
theorem removeLineComments_eq_cut :
    ∀ (n : Nat) (s : Str), s.length ≤ n → removeLineComments false s = cutLineComments s := by
  intro n
  induction n with
  | zero =>
    intro s hs
    have : s = [] := List.length_eq_zero.1 (Nat.le_zero.1 hs)
    subst this
    rfl
  | succ n ih =>
    intro s hs
    rcases first_line_split s with hl | ⟨l, t, rest, hsplit, hl, ht⟩
    · rw [removeLineComments_last hl]
      unfold cutLineComments
      rw [linesOf_last hl, terminatorsOf_last hl]
      rfl
    · have hrest : rest.length ≤ n := by
        rw [hsplit] at hs
        simp at hs
        omega
      rw [hsplit, removeLineComments_line hl ht, ih rest hrest]
      unfold cutLineComments
      rw [linesOf_line ht hl, terminatorsOf_line ht hl]
      rfl

/-- The text `<!-- // -->keep`: the `//` stands inside an HTML comment, which
is removed first, and the rest of its line after the comment, `keep`, stays;
the line comment pass alone would have removed it. -/
theorem line_rest_kept_counterexample :
    removeComments "<!-- // -->keep".toList = "keep".toList ∧
      removeLineComments false "<!-- // -->keep".toList = "<!-- ".toList := by
  decide

/-- C17 (amended): the result of `removeComments` contains no `//`. It is the
block comment pass applied to the text left by the removal of the HTML
comments with every line cut at its first `//` (that `//` and the rest of the
line, up to the line terminator, are removed, whatever surrounds the `//`);
for the first line `l` of that text this reads as stated, and the line comment
pass treats every line of any text so. The block comment pass applied to a
text without `//` gives a text without `//`. -/
theorem removeComments_no_line_comment (s : Str) :
    (∀ a b, removeComments s ≠ a ++ "//".toList ++ b) ∧
      removeComments s =
        removeDelimited "/*".toList "*/".toList 0
          (cutLineComments (removeDelimited "<!--".toList "-->".toList 0 s)) ∧
      (∀ (l rest : Str) (t : Char),
        removeDelimited "<!--".toList "-->".toList 0 s = l ++ t :: rest →
        (∀ c ∈ l, isLineTerminator c = false) → isLineTerminator t = true →
        removeComments s =
          removeDelimited "/*".toList "*/".toList 0
            (splitHead l "//".toList ++ t :: cutLineComments rest)) ∧
      (∀ (l rest : Str) (t : Char),
        (∀ c ∈ l, isLineTerminator c = false) → isLineTerminator t = true →
        removeLineComments false (l ++ t :: rest) =
          splitHead l "//".toList ++ t :: removeLineComments false rest) ∧
      (∀ u : Str, (∀ a b, u ≠ a ++ "//".toList ++ b) →
        ∀ a b, removeDelimited "/*".toList "*/".toList 0 u ≠ a ++ "//".toList ++ b) := by
  refine ⟨?_, ?_, ?_, ?_, ?_⟩
  · unfold removeComments
    exact no_slashes_of_chain (chain_removeBlock _ 0 (chain_removeLineComments _ false))
  · unfold removeComments
    simp only
    rw [removeLineComments_eq_cut _ _ (Nat.le_refl _)]
  · intro l rest t hs hl ht
    unfold removeComments
    simp only
    rw [hs, removeLineComments_line hl ht, removeLineComments_eq_cut _ _ (Nat.le_refl _)]
  · intro l rest t hl ht
    exact removeLineComments_line hl ht
  · intro u hu
    exact no_slashes_of_chain (chain_removeBlock u 0 (chain_of_no_slashes hu))

/-- A `//` inside an attribute value on the first of two lines: the rest of
the line goes with it, the second line stays. -/
theorem removeComments_no_line_comment_witness :
    removeComments "<a href=\"http://x.y\">z</a>\n</b>".toList =
      "<a href=\"http:\n</b>".toList :=
  (removeComments_no_line_comment "<a href=\"http://x.y\">z</a>\n</b>".toList).2.2.1
    "<a href=\"http://x.y\">z</a>".toList "</b>".toList '\n'
    (by decide) (by decide) (by decide)

/-! ## The summary counters -/

/-- Every issue of `checkTableIssues` is an error or a warning. -/
theorem issue_type_cases {content : Str} {i : Issue} (hi : i ∈ checkTableIssues content) :
    i.type = "error" ∨ i.type = "warning" := by
  unfold checkTableIssues at hi
  simp only at hi
  split at hi
  · simp at hi
  · rcases List.mem_append.1 hi with h1 | h1
    · rcases List.mem_append.1 h1 with h2 | h2
      · obtain ⟨m, _, h3⟩ := List.mem_flatMap.1 h2
        rcases mem_columnIssues h3 with h | h | h <;> rw [h]
        · exact Or.inl rfl
        · exact Or.inr rfl
        · exact Or.inl rfl
      · unfold slotScopeIssues at h2
        split at h2
        · rw [List.mem_singleton.1 h2]
          exact Or.inr rfl
        · simp at h2
    · obtain ⟨comp, _, m, _, h3⟩ := mem_allComponentIssues h1
      rw [h3]
      exact Or.inl rfl

/-- In a list of errors and warnings the two filters of `main` split the
list. -/
theorem error_warning_count :
    ∀ {l : List Issue}, (∀ i ∈ l, i.type = "error" ∨ i.type = "warning") →
      (l.filter (fun i => i.type = "error")).length +
        (l.filter (fun i => i.type = "warning")).length = l.length := by
  intro l
  induction l with
  | nil => intro _; rfl
  | cons x xs ih =>
    intro h
    have hxs := ih (fun i hi => h i (List.mem_cons_of_mem _ hi))
    have hne : ("error" : String) ≠ "warning" := by decide
    rcases h x (List.mem_cons_self _ _) with hx | hx
    · have h1 : decide (x.type = "error") = true := by simp [hx]
      have h2 : decide (x.type = "warning") = false := by simp [hx, hne]
      simp only [List.filter, h1, h2, List.length_cons]
      omega
    · have h1 : decide (x.type = "error") = false := by simp [hx, hne.symm]
      have h2 : decide (x.type = "warning") = true := by simp [hx]
      simp only [List.filter, h1, h2, List.length_cons]
      omega

/-- The counters after the scan, from any starting values. -/
theorem foldl_scanFile (files : List (String × Str)) :
    ∀ acc : ScanSummary,
      (files.foldl scanFile acc).totalIssues =
          acc.totalIssues + (files.map (fun f => (checkTableIssues f.2).length)).sum ∧
        (files.foldl scanFile acc).errorCount + (files.foldl scanFile acc).warningCount =
          acc.errorCount + acc.warningCount +
            (files.map (fun f => (checkTableIssues f.2).length)).sum ∧
        (files.foldl scanFile acc).filesWithIssues =
          acc.filesWithIssues ++
            ((files.filter (fun f => checkTableIssues f.2 ≠ [])).map
              (fun f => (f.1, checkTableIssues f.2))) := by
  induction files with
  | nil => intro acc; simp
  | cons f fs ih =>
    intro acc
    simp only [List.foldl_cons, List.map_cons, List.sum_cons]
    obtain ⟨h1, h2, h3⟩ := ih (scanFile acc f)
    rw [h1, h2, h3]
    by_cases hf : checkTableIssues f.2 = []
    · have hacc : scanFile acc f = acc := by
        unfold scanFile
        simp [hf]
      rw [hacc]
      simp [hf]
    · have hpos : (checkTableIssues f.2).length > 0 := List.length_pos.2 hf
      have hcount := error_warning_count (fun i (hi : i ∈ checkTableIssues f.2) =>
        issue_type_cases hi)
      have ht : (scanFile acc f).totalIssues =
          acc.totalIssues + (checkTableIssues f.2).length := by
        unfold scanFile
        simp only [hpos, if_true]
      have he : (scanFile acc f).errorCount + (scanFile acc f).warningCount =
          acc.errorCount + acc.warningCount + (checkTableIssues f.2).length := by
        unfold scanFile
        simp only [hpos, if_true]
        omega
      have hl : (scanFile acc f).filesWithIssues =
          acc.filesWithIssues ++ [(f.1, checkTableIssues f.2)] := by
        unfold scanFile
        simp only [hpos, if_true]
      rw [ht, he, hl]
      refine ⟨by omega, by omega, ?_⟩
      rw [List.filter_cons_of_pos (by simpa using hf)]
      simp

/-- C19: after the scan of any list of files, with the issue list of each file
produced by `checkTableIssues`, the counters of `main` satisfy
`errorCount + warningCount = totalIssues`, `totalIssues` is the sum of the
lengths of the lists, and `filesWithIssues` holds exactly the files with a
non-empty list, each with its list, in scan order. -/
theorem scan_summary_counters (files : List (String × Str)) :
    (scanSummary files).errorCount + (scanSummary files).warningCount =
        (scanSummary files).totalIssues ∧
      (scanSummary files).totalIssues =
        (files.map (fun f => (checkTableIssues f.2).length)).sum ∧
      (scanSummary files).filesWithIssues =
        (files.filter (fun f => checkTableIssues f.2 ≠ [])).map
          (fun f => (f.1, checkTableIssues f.2)) := by
  obtain ⟨h1, h2, h3⟩ := foldl_scanFile files ⟨0, 0, 0, []⟩
  unfold scanSummary
  rw [h1, h2, h3]
  simp

end CheckTable
